import Mathlib

/-! # mongonogo: registry, version store and migration runner

A shallow embedding of the Go package `mongonogo` (`client.go`, `migration.go`,
`repository.go`, `db.go`) together with theorems about it.

Conventions of the embedding.

* Everything a Go call can touch outside its arguments (the database, the
  marker collection, whatever a migration closure captured) is one explicit
  world value of an arbitrary type `σ`, threaded through every call.
* A Go call either returns or panics; `GoResult` records which.  A `nil`
  function value is the function that panics when called.
* Go `int` is embedded as `Int`: the package only compares versions, it does
  no arithmetic on them.
* `context.Context` values carry only their timeout; real time is not modelled.
* The registry `migrations` is a package-level variable; it is passed
  explicitly, and operations that assign to it return the new value.
* The registry mutex `m` plays no part in the sequential semantics; the mutex and
  map steps of `Register` and `Unregister` are listed apart (`RegisterSteps`,
  `UnregisterSteps`).
-/

namespace Mongonogo

/-! ## Basic Go values -/

/-- Go `error` values that are not `nil`.  `nil` is `none` in `Option Err`.
The named constructors are the sentinel errors the package refers to; `other`
stands for every other error value. -/
inductive Err where
  | ErrDuplicatedMigration
  | ErrNoDocuments
  | ErrClientDisconnected
  | other (code : Nat)
  deriving DecidableEq, Repr

/-- The result of a Go call: a returned value, or a run-time panic. -/
inductive GoResult (α : Type) where
  | ret (a : α)
  | panic
  deriving DecidableEq, Repr

/-- The result of a call of type `func(...) error`. -/
abbrev Outcome := GoResult (Option Err)

/-- A `*mongo.Database` handle (`none` is the nil pointer). -/
abbrev Database := Option String

/-- A `context.Context` built by `context.WithTimeout(context.Background(), d)`;
only the duration `d` (nanoseconds) is kept. -/
structure Context where
  timeout : Int
  deriving DecidableEq, Repr

/-- Go `context.WithTimeout(context.Background(), d)`. -/
def Context.WithTimeout (d : Int) : Context := ⟨d⟩

/-- A Go value of type `func(db *mongo.Database) error` acting on the world. -/
abbrev Func (σ : Type) := Database → σ → Outcome × σ

/-- The `nil` function value: calling it panics and changes nothing. -/
def nilFunc {σ : Type} : Func σ := fun _ w => (GoResult.panic, w)

/-! ## migration.go -/

/-- Go `type Migration struct { ID; Version; Up; Down }`.  `ID` is a
`primitive.ObjectID`, kept as a number (`0` is the zero ObjectID). -/
structure Migration (σ : Type) where
  ID : Nat
  Version : Int
  Up : Func σ
  Down : Func σ

/-- The zero value of `Migration`: what `var migration Migration` declares and
what indexing the registry at an absent key yields. -/
def Migration.zero {σ : Type} : Migration σ :=
  { ID := 0, Version := 0, Up := nilFunc, Down := nilFunc }

/-- Go `type migrationMap map[int]Migration`: keys are unique; the order of the
entries is the (unspecified) iteration order of the Go map. -/
abbrev migrationMap (σ : Type) := AList (fun _ : Int => Migration σ)

/-- Go map indexing `m[k]`: the entry, or the zero value when `k` is absent. -/
def migrationMap.index {σ : Type} (m : migrationMap σ) (k : Int) : Migration σ :=
  (m.lookup k).getD Migration.zero

/-- Go `sort.Sort(s)` for `s : sort.IntSlice` (standard library): sorts
ascending.  On integers every sorting algorithm returns the same list, so
insertion sort stands for it. -/
def sortInts (keys : List Int) : List Int :=
  keys.insertionSort (fun a b => a ≤ b)

/-- Go `sort.Sort(sort.Reverse(s))` for `s : sort.IntSlice`: `sort.Reverse` swaps
the arguments of `Less`, so the result is descending. -/
def sortIntsReverse (keys : List Int) : List Int :=
  keys.insertionSort (fun a b => b ≤ a)

/-- Go `func (m *migrationMap) Versions(reverse bool) []int`.  The receiver is a
pointer, so the map after the call is returned next to the result. -/
def migrationMap.Versions {σ : Type} (m : migrationMap σ) (reverse : Bool) :
    List Int × migrationMap σ :=
  let keys := m.keys
  if reverse then (sortIntsReverse keys, m) else (sortInts keys, m)

/-! ## client.go: the registry -/

/-- Go `func Register(v int, up, down func(*mongo.Database) error) error`, on the
registry passed as `migrations`; returns the error and the registry after the
call. -/
def Register {σ : Type} (migrations : migrationMap σ) (v : Int) (up down : Func σ) :
    Option Err × migrationMap σ :=
  match migrations.lookup v with
  | some _ => (some Err.ErrDuplicatedMigration, migrations)
  | none => (none, migrations.insert v { ID := 0, Version := v, Up := up, Down := down })

/-- Go `func Unregister(v int)`; returns the registry after the call. -/
def Unregister {σ : Type} (migrations : migrationMap σ) (v : Int) : migrationMap σ :=
  match migrations.lookup v with
  | some _ => migrations.erase v
  | none => migrations

/-! ## repository.go: the `versioner` interface -/

/-- Go `type versioner interface { ReadVersion; WriteVersion; DeleteVersion }`:
any implementation, acting on the world. -/
structure versioner (σ : Type) where
  ReadVersion : Context → σ → GoResult (Int × Option Err) × σ
  WriteVersion : Context → Migration σ → σ → Outcome × σ
  DeleteVersion : Context → Migration σ → σ → Outcome × σ

/-! ## client.go: the client -/

/-- Go `type Client struct { Versioner; Schema; Timeout; db }`; `Timeout` is a
`time.Duration` (nanoseconds). -/
structure Client (σ : Type) where
  Versioner : versioner σ
  Schema : String
  Timeout : Int
  db : Database

/-- Go `func (c *Client) Version() (int, error)`. -/
def Client.Version {σ : Type} (c : Client σ) (w : σ) : GoResult (Int × Option Err) × σ :=
  let ctx := Context.WithTimeout c.Timeout
  c.Versioner.ReadVersion ctx w

/-- The calls `Up` and `Down` make besides reading the version: a migration's
forward function `m.Up(c.db)`, its backward function `m.Down(c.db)`,
`Versioner.WriteVersion(ctx, m)` and `Versioner.DeleteVersion(ctx, m)`. -/
inductive Call (σ : Type) where
  | forward (m : Migration σ)
  | backward (m : Migration σ)
  | write (m : Migration σ)
  | delete (m : Migration σ)

/-- One call together with what it returned. -/
structure Event (σ : Type) where
  call : Call σ
  result : Outcome

/-- What a run of `Up` or `Down` amounts to: how the call ended, the world it
left, and the calls it made, in order. -/
structure Run (σ : Type) where
  out : Outcome
  world : σ
  trace : List (Event σ)

/-- The loop `for _, version := range versions { ... }` of `Client.Up`, from the
world `w`, with `v` the version read at the start. -/
def Client.upLoop {σ : Type} (c : Client σ) (migrations : migrationMap σ) (v : Int) :
    List Int → σ → Run σ
  | [], w => ⟨GoResult.ret none, w, []⟩
  | version :: rest, w =>
    if version ≤ v then
      c.upLoop migrations v rest w
    else
      let migration := migrations.index version
      match migration.Up c.db w with
      | (GoResult.ret none, w1) =>
        let ctx := Context.WithTimeout c.Timeout
        match c.Versioner.WriteVersion ctx migration w1 with
        | (GoResult.ret none, w2) =>
          let r := c.upLoop migrations v rest w2
          ⟨r.out, r.world,
            ⟨Call.forward migration, GoResult.ret none⟩ ::
              ⟨Call.write migration, GoResult.ret none⟩ :: r.trace⟩
        | (res, w2) =>
          ⟨res, w2, [⟨Call.forward migration, GoResult.ret none⟩, ⟨Call.write migration, res⟩]⟩
      | (res, w1) => ⟨res, w1, [⟨Call.forward migration, res⟩]⟩

/-- Go `func (c *Client) Up() error`, on the registry `migrations`. -/
def Client.Up {σ : Type} (c : Client σ) (migrations : migrationMap σ) (w : σ) : Run σ :=
  match c.Version w with
  | (GoResult.panic, w1) => ⟨GoResult.panic, w1, []⟩
  | (GoResult.ret (_, some err), w1) => ⟨GoResult.ret (some err), w1, []⟩
  | (GoResult.ret (v, none), w1) =>
    let (versions, migrations) := migrations.Versions false
    c.upLoop migrations v versions w1

/-- The loop `for _, version := range versions { ... }` of `Client.Down`. -/
def Client.downLoop {σ : Type} (c : Client σ) (migrations : migrationMap σ) (v : Int) :
    List Int → σ → Run σ
  | [], w => ⟨GoResult.ret none, w, []⟩
  | version :: rest, w =>
    if version > v then
      c.downLoop migrations v rest w
    else
      let migration := migrations.index version
      match migration.Down c.db w with
      | (GoResult.ret none, w1) =>
        let ctx := Context.WithTimeout c.Timeout
        match c.Versioner.DeleteVersion ctx migration w1 with
        | (GoResult.ret none, w2) =>
          let r := c.downLoop migrations v rest w2
          ⟨r.out, r.world,
            ⟨Call.backward migration, GoResult.ret none⟩ ::
              ⟨Call.delete migration, GoResult.ret none⟩ :: r.trace⟩
        | (res, w2) =>
          ⟨res, w2, [⟨Call.backward migration, GoResult.ret none⟩, ⟨Call.delete migration, res⟩]⟩
      | (res, w1) => ⟨res, w1, [⟨Call.backward migration, res⟩]⟩

/-- Go `func (c *Client) Down() error`, on the registry `migrations`. -/
def Client.Down {σ : Type} (c : Client σ) (migrations : migrationMap σ) (w : σ) : Run σ :=
  match c.Version w with
  | (GoResult.panic, w1) => ⟨GoResult.panic, w1, []⟩
  | (GoResult.ret (_, some err), w1) => ⟨GoResult.ret (some err), w1, []⟩
  | (GoResult.ret (v, none), w1) =>
    let (versions, migrations) := migrations.Versions false
    c.downLoop migrations v versions w1

/-- The calls `Up` is expected to make for the versions `xs`: each version's
forward function, then the write of its migration. -/
def upCalls {σ : Type} (migrations : migrationMap σ) (xs : List Int) : List (Call σ) :=
  xs.flatMap (fun x => [Call.forward (migrations.index x), Call.write (migrations.index x)])

/-- The calls `Down` is expected to make for the versions `xs`: each version's
backward function, then the delete of its migration. -/
def downCalls {σ : Type} (migrations : migrationMap σ) (xs : List Int) : List (Call σ) :=
  xs.flatMap (fun x => [Call.backward (migrations.index x), Call.delete (migrations.index x)])

/-! ## db.go and repository.go: the version store -/

/-- The BSON values the package builds: integers and `time.Time` values. -/
inductive BsonValue where
  | int (n : Int)
  | time (t : Nat)
  deriving DecidableEq, Repr

/-- A `bson.D` or `bson.M` document: fields and their values. -/
abbrev BsonDoc := List (String × BsonValue)

/-- A `*options.FindOneOptions`; only the sort specification (its `Sort` field)
is kept. -/
structure FindOneOptions where
  sortSpec : Option BsonDoc
  deriving DecidableEq, Repr

/-- Go `options.FindOne()`. -/
def optionsFindOne : FindOneOptions := ⟨none⟩

/-- Go `func (f *FindOneOptions) SetSort(sort interface{})`. -/
def FindOneOptions.SetSort (o : FindOneOptions) (sort : BsonDoc) : FindOneOptions :=
  { o with sortSpec := some sort }

/-- Go `type querySingleResult interface { Decode(v interface{}) error }` (db.go).
The package only decodes into a `*Migration`; `Decode` gets the destination and
returns the error together with the destination after the call. -/
structure querySingleResult (σ : Type) where
  Decode : Migration σ → σ → (Outcome × Migration σ) × σ

/-- Go `type collectionManager interface { FindOne; InsertOne; DeleteOne }` (db.go).
The `*mongo.InsertOneResult` and `*mongo.DeleteResult` values, which the package
discards, are kept as numbers (inserted id, deleted count). -/
structure collectionManager (σ : Type) where
  FindOne : Context → BsonDoc → List FindOneOptions → σ → GoResult (querySingleResult σ) × σ
  InsertOne : Context → BsonDoc → σ → GoResult (Option Nat × Option Err) × σ
  DeleteOne : Context → BsonDoc → σ → GoResult (Option Int × Option Err) × σ

/-- Go `type version struct { Collection collectionManager }`. -/
structure version (σ : Type) where
  Collection : collectionManager σ

/-- Go `func (v *version) ReadVersion(ctx context.Context) (int, error)`. -/
def version.ReadVersion {σ : Type} (v : version σ) (ctx : Context) (w : σ) :
    GoResult (Int × Option Err) × σ :=
  let migration : Migration σ := Migration.zero
  let options := optionsFindOne.SetSort [("version", BsonValue.int (-1))]
  match v.Collection.FindOne ctx [] [options] w with
  | (GoResult.panic, w1) => (GoResult.panic, w1)
  | (GoResult.ret q, w1) =>
    match q.Decode migration w1 with
    | ((GoResult.panic, _), w2) => (GoResult.panic, w2)
    | ((GoResult.ret err, migration), w2) =>
      match err with
      | none => (GoResult.ret (migration.Version, none), w2)
      | some Err.ErrNoDocuments => (GoResult.ret (migration.Version, none), w2)
      | some e => (GoResult.ret (-1, some e), w2)

/-- Go `func (v *version) WriteVersion(ctx, migration Migration) error`;
`timeNow` is `time.Now()`, the clock read off the world. -/
def version.WriteVersion {σ : Type} (v : version σ) (timeNow : σ → Nat) (ctx : Context)
    (migration : Migration σ) (w : σ) : Outcome × σ :=
  match v.Collection.InsertOne ctx
      [("version", BsonValue.int migration.Version), ("timestamp", BsonValue.time (timeNow w))]
      w with
  | (GoResult.panic, w1) => (GoResult.panic, w1)
  | (GoResult.ret (_, err), w1) => (GoResult.ret err, w1)

/-- Go `func (v *version) DeleteVersion(ctx, migration Migration) error`. -/
def version.DeleteVersion {σ : Type} (v : version σ) (ctx : Context)
    (migration : Migration σ) (w : σ) : Outcome × σ :=
  match v.Collection.DeleteOne ctx [("version", BsonValue.int migration.Version)] w with
  | (GoResult.panic, w1) => (GoResult.panic, w1)
  | (GoResult.ret (_, err), w1) => (GoResult.ret err, w1)

/-- The `versioner` that `New` stores in the client: `&v` for a `version` value. -/
def version.toVersioner {σ : Type} (v : version σ) (timeNow : σ → Nat) : versioner σ :=
  { ReadVersion := v.ReadVersion
    WriteVersion := v.WriteVersion timeNow
    DeleteVersion := v.DeleteVersion }

/-! ## The marker store

The storage engine behind the adapter is not part of the package.  The
properties about persisted markers are stated over any `versioner` that behaves
as a marker store, and exercised on an in-memory collection. -/

/-- The greatest version of a list of markers, `0` for no marker at all. -/
def greatestVersion : List Int → Int
  | [] => 0
  | x :: xs => xs.foldl max x

/-- Modelled from the spec: the storage engine behind the adapter (section 4.2).
`markers w` are the versions of the marker records held in the world `w`.
`ReadVersion` returns the greatest stored version (`0` when there is none) and
leaves the markers alone; a `WriteVersion` that returns nil adds one record
with the migration's version; a `DeleteVersion` that returns nil removes one
record with the migration's version. -/
structure MarkerStore {σ : Type} (V : versioner σ) (markers : σ → List Int) : Prop where
  read : ∀ (ctx : Context) (w : σ),
    (V.ReadVersion ctx w).1 = GoResult.ret (greatestVersion (markers w), none) ∧
    markers (V.ReadVersion ctx w).2 = markers w
  write : ∀ (ctx : Context) (m : Migration σ) (w : σ),
    (V.WriteVersion ctx m w).1 = GoResult.ret none →
    markers (V.WriteVersion ctx m w).2 = markers w ++ [m.Version]
  delete : ∀ (ctx : Context) (m : Migration σ) (w : σ),
    (V.DeleteVersion ctx m w).1 = GoResult.ret none →
    markers (V.DeleteVersion ctx m w).2 = (markers w).erase m.Version

/-- Every entry of the registry is filed under its own `Version`, as `Register`
files it. -/
def KeyedByVersion {σ : Type} (migrations : migrationMap σ) : Prop :=
  ∀ e ∈ migrations.entries, e.2.Version = e.1

/-- A marker record of the in-memory collection. -/
structure MarkerDoc where
  version : Int
  timestamp : Nat
  deriving DecidableEq, Repr

/-- The world of the in-memory collection: its records, in insertion order, and
the clock. -/
structure MemStore where
  docs : List MarkerDoc
  clock : Nat
  deriving DecidableEq, Repr

/-- The integer stored under `"version"` in a document, if any. -/
def docVersion (d : BsonDoc) : Option Int :=
  match d.lookup "version" with
  | some (BsonValue.int n) => some n
  | _ => none

/-- The time stored under `"timestamp"` in a document (`0` when absent). -/
def docTimestamp (d : BsonDoc) : Nat :=
  match d.lookup "timestamp" with
  | some (BsonValue.time t) => t
  | _ => 0

/-- A record matches a filter when the filter names no version or names the
record's version. -/
def MarkerDoc.matches (filter : BsonDoc) (d : MarkerDoc) : Bool :=
  match docVersion filter with
  | some n => decide (d.version = n)
  | none => true

/-- The result of a find-one on the in-memory collection, given the matching
records: decoding puts the greatest matching version into the destination, or
reports `ErrNoDocuments` and leaves the destination alone when nothing
matches. -/
def memFind (hits : List MarkerDoc) : querySingleResult MemStore :=
  { Decode := fun dest w =>
      match hits with
      | [] => ((GoResult.ret (some Err.ErrNoDocuments), dest), w)
      | d :: ds =>
        ((GoResult.ret none,
          { dest with Version := greatestVersion ((d :: ds).map MarkerDoc.version) }), w) }

/-- Modelled from the spec: the storage adapter (section 4.4), in memory.
`FindOne` yields the result for the matching records (the package only asks
for the greatest version); `InsertOne` appends a record; `DeleteOne` removes
the first matching record.  None of them fails. -/
def memCollection : collectionManager MemStore :=
  { FindOne := fun _ filter _ w => (GoResult.ret (memFind (w.docs.filter (MarkerDoc.matches filter))), w)
    InsertOne := fun _ doc w =>
      (GoResult.ret (some w.docs.length, none),
        { w with docs := w.docs ++ [⟨(docVersion doc).getD 0, docTimestamp doc⟩] })
    DeleteOne := fun _ filter w =>
      (GoResult.ret (some 1, none),
        { w with docs := w.docs.eraseP (MarkerDoc.matches filter) }) }

/-- A find-one result whose decoding fails with `ErrClientDisconnected`, as in
`TestReadVersion` ("with unexpected error"). -/
def disconnectedResult : querySingleResult MemStore :=
  { Decode := fun dest w => ((GoResult.ret (some Err.ErrClientDisconnected), dest), w) }

/-- A collection whose every call fails with `ErrClientDisconnected`. -/
def disconnectedCollection : collectionManager MemStore :=
  { FindOne := fun _ _ _ w => (GoResult.ret disconnectedResult, w)
    InsertOne := fun _ _ w => (GoResult.ret (none, some Err.ErrClientDisconnected), w)
    DeleteOne := fun _ _ w => (GoResult.ret (none, some Err.ErrClientDisconnected), w) }

/-- The versions of the markers held by the in-memory collection. -/
def memMarkers (w : MemStore) : List Int := w.docs.map MarkerDoc.version

/-- The package's `version` store over the in-memory collection. -/
def memVersioner : versioner MemStore :=
  version.toVersioner { Collection := memCollection } (fun w => w.clock)

/-- A client over the in-memory collection, built field by field as the tests
build theirs (`Client{Versioner: ...}`, nil `db`), with the default schema
`"migrations"` and timeout 2s. -/
def memClient : Client MemStore :=
  { Versioner := memVersioner, Schema := "migrations", Timeout := 2000000000, db := none }

/-- A client whose store is disconnected. -/
def disconnectedClient : Client MemStore :=
  { Versioner := version.toVersioner { Collection := disconnectedCollection } (fun w => w.clock)
    Schema := "migrations", Timeout := 2000000000, db := none }

/-- A migration function that succeeds and leaves the world alone. -/
def okFunc : Func MemStore := fun _ w => (GoResult.ret none, w)

/-- A migration function that fails with `ErrClientDisconnected`. -/
def failFunc : Func MemStore := fun _ w => (GoResult.ret (some Err.ErrClientDisconnected), w)

/-- The empty in-memory collection. -/
def emptyStore : MemStore := { docs := [], clock := 0 }

/-- The registry after `Register(1, ok, ok)` and `Register(2, ok, ok)`. -/
def registry12 : migrationMap MemStore :=
  (Register (Register ∅ 1 okFunc okFunc).2 2 okFunc okFunc).2

/-- The in-memory collection holding the markers 1 and 2. -/
def store12 : MemStore := { docs := [⟨1, 0⟩, ⟨2, 0⟩], clock := 0 }

/-- The registry after `Register(1, ok, ok)` and `Register(2, fail, fail)`. -/
def registryFail2 : migrationMap MemStore :=
  (Register (Register ∅ 1 okFunc okFunc).2 2 failFunc failFunc).2

/-- Whether a call is a call of a forward function. -/
def Call.isForward {σ : Type} : Call σ → Bool
  | Call.forward _ => true
  | _ => false

/-- The registry after `Register(1, fail, fail)`, as in `TestUp_ErrMigrationUp`. -/
def registryFail1 : migrationMap MemStore :=
  (Register ∅ 1 failFunc failFunc).2

/-! ## Sequences of registry calls -/

/-- A call that changes the registry: `Register(v, up, down)` or `Unregister(v)`. -/
inductive RegistryOp (σ : Type) where
  | register (v : Int) (up down : Func σ)
  | unregister (v : Int)

/-- The registry after one registry call (the error `Register` returns is
dropped, as the callers in the tests do). -/
def RegistryOp.apply {σ : Type} (migrations : migrationMap σ) : RegistryOp σ → migrationMap σ
  | RegistryOp.register v up down => (Register migrations v up down).2
  | RegistryOp.unregister v => Unregister migrations v

/-- The registry after a sequence of registry calls, made one after the other. -/
def applyRegistryOps {σ : Type} (migrations : migrationMap σ) (ops : List (RegistryOp σ)) :
    migrationMap σ :=
  ops.foldl RegistryOp.apply migrations

/-! ## client.go: `New` -/

/-- Go `type Options struct { Schema; Timeout; Database }`. -/
structure Options where
  Schema : String
  Timeout : String
  Database : Database
  deriving DecidableEq, Repr

/-- The `default:"..."` struct tags of `Options`, as
`reflect.TypeOf(opt).FieldByName(name)` followed by `Tag.Get("default")` reads
them. -/
def Options.defaultTag : String → String
  | "Schema" => "migrations"
  | "Timeout" => "2s"
  | _ => ""

/-- Go `type database struct { db *mongo.Database }` (db.go). -/
structure database where
  db : Database
  deriving DecidableEq, Repr

/-- Go `func (r *database) Collection(c string) collectionManager` (db.go):
`&collection{c: r.db.Collection(c)}`.  `r.db.Collection(c)` is a method of the
driver that reads through the handle, so it panics on the nil handle;
`driver name c` is the wrapped collection `c` of the database `name`. -/
def database.Collection {σ : Type} (r : database) (driver : String → String → collectionManager σ)
    (c : String) : GoResult (collectionManager σ) :=
  match r.db with
  | none => GoResult.panic
  | some name => GoResult.ret (driver name c)

/-- Go `func New(opt Options) (*Client, error)`.  `parseDuration` is
`time.ParseDuration` (standard library); `driver` is the driver behind
`database.Collection`; `timeNow` is `time.Now()`. -/
def New {σ : Type} (parseDuration : String → Int × Option Err)
    (driver : String → String → collectionManager σ) (timeNow : σ → Nat) (opt : Options) :
    GoResult (Option (Client σ) × Option Err) :=
  let opt := if opt.Schema = "" then { opt with Schema := Options.defaultTag "Schema" } else opt
  let opt := if opt.Timeout = "" then { opt with Timeout := Options.defaultTag "Timeout" } else opt
  match parseDuration opt.Timeout with
  | (_, some err) => GoResult.ret (none, some err)
  | (timeout, none) =>
    let d : database := { db := opt.Database }
    match d.Collection driver opt.Schema with
    | GoResult.panic => GoResult.panic
    | GoResult.ret collection =>
      let v : version σ := { Collection := collection }
      GoResult.ret
        (some
          { Versioner := v.toVersioner timeNow
            Schema := opt.Schema
            Timeout := timeout
            db := opt.Database },
          none)

/-- A stand-in for `time.ParseDuration` on the strings of `TestNew`: `"2s"` and
`"10s"` parse, everything else is rejected. -/
def parseDurationExample : String → Int × Option Err
  | "2s" => (2000000000, none)
  | "10s" => (10000000000, none)
  | _ => (0, some (Err.other 0))

/-! ## Observing the calls made on the storage adapter -/

/-- One call received by the storage adapter. -/
inductive AdapterCall where
  | findOne (ctx : Context) (filter : BsonDoc) (opts : List FindOneOptions)
  | decode
  | insertOne (ctx : Context) (doc : BsonDoc)
  | deleteOne (ctx : Context) (filter : BsonDoc)
  deriving DecidableEq, Repr

/-- The persisted fields of a migration, as a migration over another world. -/
def Migration.persisted {σ τ : Type} (m : Migration σ) : Migration τ :=
  { ID := m.ID, Version := m.Version, Up := nilFunc, Down := nilFunc }

/-- A collection manager that behaves as `C` and also records, in order, every
call it receives. -/
def collectionManager.logged {σ : Type} (C : collectionManager σ) :
    collectionManager (σ × List AdapterCall) :=
  { FindOne := fun ctx filter opts s =>
      match C.FindOne ctx filter opts s.1 with
      | (GoResult.panic, w1) =>
        (GoResult.panic, (w1, s.2 ++ [AdapterCall.findOne ctx filter opts]))
      | (GoResult.ret q, w1) =>
        (GoResult.ret
          { Decode := fun dest s2 =>
              match q.Decode dest.persisted s2.1 with
              | ((res, d), w2) =>
                ((res, { dest with ID := d.ID, Version := d.Version }),
                  (w2, s2.2 ++ [AdapterCall.decode])) },
          (w1, s.2 ++ [AdapterCall.findOne ctx filter opts]))
    InsertOne := fun ctx doc s =>
      ((C.InsertOne ctx doc s.1).1,
        ((C.InsertOne ctx doc s.1).2, s.2 ++ [AdapterCall.insertOne ctx doc]))
    DeleteOne := fun ctx filter s =>
      ((C.DeleteOne ctx filter s.1).1,
        ((C.DeleteOne ctx filter s.1).2, s.2 ++ [AdapterCall.deleteOne ctx filter])) }

/-! ## The registry mutex -/

/-- The steps of `Register` and `Unregister` that concern the mutex `m` and the
registry map. -/
inductive SyncStep where
  | lock
  | unlock
  | mapRead (k : Int)
  | mapWrite (k : Int)
  | mapDelete (k : Int)
  deriving DecidableEq, Repr

/-- The mutex and map steps of `Register(v, up, down)`, in order: `m.Lock()`, the
lookup `migrations[v]`, the assignment `migrations[v] = ...` when `v` is absent,
and the deferred `m.Unlock()` on return. -/
def RegisterSteps {σ : Type} (migrations : migrationMap σ) (v : Int) : List SyncStep :=
  match migrations.lookup v with
  | some _ => [SyncStep.lock, SyncStep.mapRead v, SyncStep.unlock]
  | none => [SyncStep.lock, SyncStep.mapRead v, SyncStep.mapWrite v, SyncStep.unlock]

/-- The mutex and map steps of `Unregister(v)`, in order: the lookup
`migrations[v]` and, when `v` is present, `delete(migrations, v)`. -/
def UnregisterSteps {σ : Type} (migrations : migrationMap σ) (v : Int) : List SyncStep :=
  match migrations.lookup v with
  | some _ => [SyncStep.mapRead v, SyncStep.mapDelete v]
  | none => [SyncStep.mapRead v]

/-- Whether every map step of the list happens while the mutex is held, `held`
telling whether it is held at the start. -/
def guardedFrom : Bool → List SyncStep → Bool
  | _, [] => true
  | _, SyncStep.lock :: rest => guardedFrom true rest
  | _, SyncStep.unlock :: rest => guardedFrom false rest
  | held, SyncStep.mapRead _ :: rest => held && guardedFrom held rest
  | held, SyncStep.mapWrite _ :: rest => held && guardedFrom held rest
  | held, SyncStep.mapDelete _ :: rest => held && guardedFrom held rest

/-- Whether every map step of a call happens while the call holds the mutex. -/
def guarded (steps : List SyncStep) : Bool := guardedFrom false steps

/-! ## Reading the persisted versions off the calls -/

/-- The versions carried by the `WriteVersion` calls of a list of calls, in
order. -/
def writtenVersions {σ : Type} : List (Call σ) → List Int
  | [] => []
  | Call.write m :: rest => m.Version :: writtenVersions rest
  | Call.forward _ :: rest => writtenVersions rest
  | Call.backward _ :: rest => writtenVersions rest
  | Call.delete _ :: rest => writtenVersions rest

/-- The versions carried by the `DeleteVersion` calls of a list of calls, in
order. -/
def deletedVersions {σ : Type} : List (Call σ) → List Int
  | [] => []
  | Call.delete m :: rest => m.Version :: deletedVersions rest
  | Call.forward _ :: rest => deletedVersions rest
  | Call.backward _ :: rest => deletedVersions rest
  | Call.write _ :: rest => deletedVersions rest

/-- The in-memory collection holding only the marker 1. -/
def store1 : MemStore := { docs := [⟨1, 0⟩], clock := 0 }

/-- The registry after `Register(1, ok, ok)` and `Register(2, ok, fail)`: the
backward function of version 2 fails. -/
def registryDownFail2 : migrationMap MemStore :=
  (Register (Register ∅ 1 okFunc okFunc).2 2 okFunc failFunc).2

/-! ## Sequences of calls on the package -/

/-- Modelled from the spec: the storage engine behind the adapter when a call
fails (section 4.2, "failing arbitrarily").  A `WriteVersion` that does not
return nil has either left the markers alone or added its record all the same;
a `DeleteVersion` that does not return nil has either left the markers alone or
removed its record all the same. -/
structure MarkerStoreFaults {σ : Type} (V : versioner σ) (markers : σ → List Int) : Prop where
  write_fail : ∀ (ctx : Context) (m : Migration σ) (w : σ),
    (V.WriteVersion ctx m w).1 ≠ GoResult.ret none →
    markers (V.WriteVersion ctx m w).2 = markers w ∨
      markers (V.WriteVersion ctx m w).2 = markers w ++ [m.Version]
  delete_fail : ∀ (ctx : Context) (m : Migration σ) (w : σ),
    (V.DeleteVersion ctx m w).1 ≠ GoResult.ret none →
    markers (V.DeleteVersion ctx m w).2 = markers w ∨
      markers (V.DeleteVersion ctx m w).2 = (markers w).erase m.Version

/-- A migration function that never changes the marker records, whatever it
returns. -/
def LeavesMarkers {σ : Type} (markers : σ → List Int) (f : Func σ) : Prop :=
  ∀ (db : Database) (w : σ), markers (f db w).2 = markers w

/-- Every forward and backward function of the registry leaves the marker
records alone. -/
def Framed {σ : Type} (markers : σ → List Int) (migrations : migrationMap σ) : Prop :=
  ∀ e ∈ migrations.entries, LeavesMarkers markers e.2.Up ∧ LeavesMarkers markers e.2.Down

/-- The markers are pairwise distinct and all greater than 0. -/
def StoreInv (L : List Int) : Prop := L.Nodup ∧ ∀ y ∈ L, 0 < y

/-- A call on the package: a registry call, `Client.Up()` or `Client.Down()`. -/
inductive Op (σ : Type) where
  | registry (op : RegistryOp σ)
  | up
  | down

/-- The registry and the world between two calls. -/
structure State (σ : Type) where
  registry : migrationMap σ
  world : σ

/-- The state after one call on the package (whatever the call returned). -/
def Client.step {σ : Type} (c : Client σ) (s : State σ) : Op σ → State σ
  | Op.registry op => ⟨RegistryOp.apply s.registry op, s.world⟩
  | Op.up => ⟨s.registry, (c.Up s.registry s.world).world⟩
  | Op.down => ⟨s.registry, (c.Down s.registry s.world).world⟩

/-- The state after a sequence of calls on the package, made one after the
other. -/
def Client.run {σ : Type} (c : Client σ) (s : State σ) (ops : List (Op σ)) : State σ :=
  ops.foldl c.step s

/-! ## Migration functions that write to the marker collection, and a flaky store -/

/-- A migration function that succeeds after inserting, through its database
handle, a record of version 100 into the marker collection. -/
def insert100Func : Func MemStore :=
  fun _ w => (GoResult.ret none, { w with docs := w.docs ++ [⟨100, 0⟩] })

/-- A migration function that succeeds after inserting two records of version 0
into the marker collection. -/
def insertZerosFunc : Func MemStore :=
  fun _ w => (GoResult.ret none, { w with docs := w.docs ++ [⟨0, 0⟩, ⟨0, 0⟩] })

/-- A migration function that succeeds after dropping every record of the marker
collection. -/
def dropMarkersFunc : Func MemStore :=
  fun _ w => (GoResult.ret none, { w with docs := [] })

/-- The registry after `Register(1, insert100, ok)`. -/
def registryInsert1 : migrationMap MemStore :=
  (Register ∅ 1 insert100Func okFunc).2

/-- The registry after `Register(1, insert100, ok)` and `Register(2, fail, fail)`. -/
def registryInsert1Fail2 : migrationMap MemStore :=
  (Register (Register ∅ 1 insert100Func okFunc).2 2 failFunc failFunc).2

/-- The registry after `Register(1, ok, dropMarkers)`. -/
def registryDrop1 : migrationMap MemStore :=
  (Register ∅ 1 okFunc dropMarkersFunc).2

/-- The in-memory collection holding the markers 1 and 7. -/
def store17 : MemStore := { docs := [⟨1, 0⟩, ⟨7, 0⟩], clock := 0 }

/-- The in-memory collection, except that inserting a record of version 2 and
deleting the records of version 1 fail with `ErrClientDisconnected` and change
nothing. -/
def flakyCollection : collectionManager MemStore :=
  { FindOne := memCollection.FindOne
    InsertOne := fun ctx doc w =>
      if docVersion doc = some 2 then
        (GoResult.ret (none, some Err.ErrClientDisconnected), w)
      else memCollection.InsertOne ctx doc w
    DeleteOne := fun ctx filter w =>
      if docVersion filter = some 1 then
        (GoResult.ret (none, some Err.ErrClientDisconnected), w)
      else memCollection.DeleteOne ctx filter w }

/-- The package's `version` store over the flaky collection. -/
def flakyVersioner : versioner MemStore :=
  version.toVersioner { Collection := flakyCollection } (fun w => w.clock)

/-- A client over the flaky collection. -/
def flakyClient : Client MemStore :=
  { Versioner := flakyVersioner, Schema := "migrations", Timeout := 2000000000, db := none }

/-! # Theorems -/

/-! ## Helper lemmas: the registry -/

theorem sortInts_sorted (keys : List Int) : (sortInts keys).Sorted (fun a b => a ≤ b) :=
  List.sorted_insertionSort (fun a b : Int => a ≤ b) keys

theorem sortIntsReverse_sorted (keys : List Int) :
    (sortIntsReverse keys).Sorted (fun a b => a ≥ b) :=
  List.sorted_insertionSort (fun a b : Int => a ≥ b) keys

theorem sortInts_perm (keys : List Int) : (sortInts keys).Perm keys :=
  List.perm_insertionSort _ keys

theorem sortIntsReverse_perm (keys : List Int) : (sortIntsReverse keys).Perm keys :=
  List.perm_insertionSort _ keys

theorem Versions_asc_eq {σ : Type} (m : migrationMap σ) :
    m.Versions false = (sortInts m.keys, m) := by
  simp [migrationMap.Versions]

theorem Versions_desc_eq {σ : Type} (m : migrationMap σ) :
    m.Versions true = (sortIntsReverse m.keys, m) := by
  simp [migrationMap.Versions]

theorem Versions_asc_sorted {σ : Type} (m : migrationMap σ) :
    (m.Versions false).1.Sorted (fun a b => a < b) := by
  rw [Versions_asc_eq]
  exact (sortInts_sorted m.keys).lt_of_le ((sortInts_perm m.keys).nodup_iff.mpr m.keys_nodup)

theorem mem_Versions_asc {σ : Type} (m : migrationMap σ) (x : Int) :
    x ∈ (m.Versions false).1 ↔ x ∈ m := by
  rw [Versions_asc_eq, AList.mem_keys]
  exact (sortInts_perm m.keys).mem_iff

theorem index_of_mem {σ : Type} (m : migrationMap σ) (x : Int) (h : x ∈ m) :
    m.lookup x = some (m.index x) := by
  have hs := AList.lookup_isSome.mpr h
  obtain ⟨b, hb⟩ := Option.isSome_iff_exists.mp hs
  simp [migrationMap.index, hb]

/-! ## The registry -/

/-- C7: `Versions(false)` is strictly ascending, `Versions(true)` is strictly
descending, each lists exactly the registered versions, every one once (so its
length is the number of registered migrations), and the registry is left as it
was. -/
theorem Versions_sorted_exact {σ : Type} (m : migrationMap σ) :
    (m.Versions false).1.Sorted (fun a b => a < b) ∧
    (m.Versions true).1.Sorted (fun a b => a > b) ∧
    (∀ reverse : Bool,
      (∀ x : Int, x ∈ (m.Versions reverse).1 ↔ x ∈ m) ∧
      (∀ x : Int, x ∈ m → (m.Versions reverse).1.count x = 1) ∧
      (m.Versions reverse).1.Nodup ∧
      (m.Versions reverse).1.length = m.entries.length ∧
      (m.Versions reverse).2 = m) := by
  have hnd : m.keys.Nodup := m.keys_nodup
  have hlen : m.keys.length = m.entries.length := by simp [AList.keys, List.keys]
  refine ⟨Versions_asc_sorted m, ?_, ?_⟩
  · rw [Versions_desc_eq]
    exact (sortIntsReverse_sorted m.keys).gt_of_ge
      ((sortIntsReverse_perm m.keys).nodup_iff.mpr hnd)
  · intro reverse
    cases reverse
    · rw [Versions_asc_eq]
      have hp := sortInts_perm m.keys
      have hnd2 : (sortInts m.keys).Nodup := hp.nodup_iff.mpr hnd
      refine ⟨fun x => ?_, fun x hx => ?_, hnd2, ?_, rfl⟩
      · rw [AList.mem_keys]; exact hp.mem_iff
      · exact List.count_eq_one_of_mem hnd2 (hp.mem_iff.mpr (AList.mem_keys.mp hx))
      · rw [hp.length_eq, hlen]
    · rw [Versions_desc_eq]
      have hp := sortIntsReverse_perm m.keys
      have hnd2 : (sortIntsReverse m.keys).Nodup := hp.nodup_iff.mpr hnd
      refine ⟨fun x => ?_, fun x hx => ?_, hnd2, ?_, rfl⟩
      · rw [AList.mem_keys]; exact hp.mem_iff
      · exact List.count_eq_one_of_mem hnd2 (hp.mem_iff.mpr (AList.mem_keys.mp hx))
      · rw [hp.length_eq, hlen]

/-- C6: on a registry that does not contain `v`, `Register(v, up, down)` returns
nil, the new registry maps `v` to the migration with `Version = v`, `Up = up`,
`Down = down` (and the zero `ID`), and every other version keeps its entry. -/
theorem Register_fresh {σ : Type} (migrations : migrationMap σ) (v : Int) (up down : Func σ)
    (h : v ∉ migrations) :
    (Register migrations v up down).1 = none ∧
    (Register migrations v up down).2.lookup v =
      some { ID := 0, Version := v, Up := up, Down := down } ∧
    (∀ k : Int, k ≠ v →
      (Register migrations v up down).2.lookup k = migrations.lookup k) := by
  have hn : migrations.lookup v = none := AList.lookup_eq_none.mpr h
  have h1 : Register migrations v up down =
      (none, migrations.insert v { ID := 0, Version := v, Up := up, Down := down }) := by
    simp [Register, hn]
  rw [h1]
  exact ⟨rfl, AList.lookup_insert _, fun k hk => AList.lookup_insert_ne hk⟩

/-- C5: on a registry that already contains `v`, `Register(v, up, down)` returns
`ErrDuplicatedMigration` and the registry is unchanged (the entry of `v` and
every other entry stay as they were).  In particular, on any registry lacking
`v`, a first registration succeeds and a second one of the same version fails
with `ErrDuplicatedMigration`, leaving the first registration in place. -/
theorem Register_duplicate {σ : Type} (migrations : migrationMap σ) (v : Int)
    (up down : Func σ) (h : v ∈ migrations) :
    Register migrations v up down = (some Err.ErrDuplicatedMigration, migrations) ∧
    (∀ k : Int, (Register migrations v up down).2.lookup k = migrations.lookup k) ∧
    (∀ (m0 : migrationMap σ) (up1 down1 : Func σ), v ∉ m0 →
      (Register m0 v up1 down1).1 = none ∧
      Register (Register m0 v up1 down1).2 v up down =
        (some Err.ErrDuplicatedMigration, (Register m0 v up1 down1).2) ∧
      (Register (Register m0 v up1 down1).2 v up down).2.lookup v =
        some { ID := 0, Version := v, Up := up1, Down := down1 }) := by
  have key : ∀ (m : migrationMap σ) (u d : Func σ), v ∈ m →
      Register m v u d = (some Err.ErrDuplicatedMigration, m) := by
    intro m u d hm
    obtain ⟨b, hb⟩ := Option.isSome_iff_exists.mp (AList.lookup_isSome.mpr hm)
    simp [Register, hb]
  refine ⟨key _ _ _ h, fun k => by rw [key _ _ _ h], ?_⟩
  intro m0 up1 down1 h0
  have hn : m0.lookup v = none := AList.lookup_eq_none.mpr h0
  have h1 : Register m0 v up1 down1 =
      (none, m0.insert v { ID := 0, Version := v, Up := up1, Down := down1 }) := by
    simp [Register, hn]
  have hin : v ∈ (Register m0 v up1 down1).2 := by
    rw [h1]; exact (AList.mem_insert m0).mpr (Or.inl rfl)
  refine ⟨by rw [h1], key _ _ _ hin, ?_⟩
  rw [key _ _ _ hin, h1]
  exact AList.lookup_insert _

/-! ## Helper lemmas: one iteration of the `Up` loop -/

theorem upLoop_nil {σ : Type} (c : Client σ) (migrations : migrationMap σ) (v : Int) (w : σ) :
    c.upLoop migrations v [] w = ⟨GoResult.ret none, w, []⟩ := by
  simp [Client.upLoop]

theorem upLoop_skip {σ : Type} (c : Client σ) (migrations : migrationMap σ) (v : Int)
    (version : Int) (rest : List Int) (w : σ) (h : version ≤ v) :
    c.upLoop migrations v (version :: rest) w = c.upLoop migrations v rest w := by
  simp [Client.upLoop, h]

theorem upLoop_forward_fail {σ : Type} (c : Client σ) (migrations : migrationMap σ) (v : Int)
    (version : Int) (rest : List Int) (w w1 : σ) (res : Outcome) (h : ¬ version ≤ v)
    (hf : (migrations.index version).Up c.db w = (res, w1)) (hres : res ≠ GoResult.ret none) :
    c.upLoop migrations v (version :: rest) w =
      ⟨res, w1, [⟨Call.forward (migrations.index version), res⟩]⟩ := by
  rcases res with (_ | e) | _
  · exact absurd rfl hres
  · simp [Client.upLoop, h, hf]
  · simp [Client.upLoop, h, hf]

theorem upLoop_write_fail {σ : Type} (c : Client σ) (migrations : migrationMap σ) (v : Int)
    (version : Int) (rest : List Int) (w w1 w2 : σ) (res : Outcome) (h : ¬ version ≤ v)
    (hf : (migrations.index version).Up c.db w = (GoResult.ret none, w1))
    (hw : c.Versioner.WriteVersion (Context.WithTimeout c.Timeout) (migrations.index version) w1
      = (res, w2))
    (hres : res ≠ GoResult.ret none) :
    c.upLoop migrations v (version :: rest) w =
      ⟨res, w2, [⟨Call.forward (migrations.index version), GoResult.ret none⟩,
        ⟨Call.write (migrations.index version), res⟩]⟩ := by
  rcases res with (_ | e) | _
  · exact absurd rfl hres
  · simp [Client.upLoop, h, hf, hw]
  · simp [Client.upLoop, h, hf, hw]

theorem upLoop_step {σ : Type} (c : Client σ) (migrations : migrationMap σ) (v : Int)
    (version : Int) (rest : List Int) (w w1 w2 : σ) (h : ¬ version ≤ v)
    (hf : (migrations.index version).Up c.db w = (GoResult.ret none, w1))
    (hw : c.Versioner.WriteVersion (Context.WithTimeout c.Timeout) (migrations.index version) w1
      = (GoResult.ret none, w2)) :
    c.upLoop migrations v (version :: rest) w =
      ⟨(c.upLoop migrations v rest w2).out, (c.upLoop migrations v rest w2).world,
        ⟨Call.forward (migrations.index version), GoResult.ret none⟩ ::
          ⟨Call.write (migrations.index version), GoResult.ret none⟩ ::
            (c.upLoop migrations v rest w2).trace⟩ := by
  simp [Client.upLoop, h, hf, hw]

/-! ## Helper lemmas: the shape of a run of the `Up` loop -/

/-- Either every call of the loop succeeded, the loop returned nil and made
exactly the expected calls for the eligible versions; or the trace ends with the
one call that did not return nil, whose result is the result of the loop, after
the complete steps of the eligible versions before it. -/
theorem upLoop_shape {σ : Type} (c : Client σ) (migrations : migrationMap σ) (v : Int) :
    ∀ (xs : List Int) (w : σ),
      ((∀ ev ∈ (c.upLoop migrations v xs w).trace, ev.result = GoResult.ret none) ∧
        (c.upLoop migrations v xs w).out = GoResult.ret none ∧
        (c.upLoop migrations v xs w).trace.map Event.call =
          upCalls migrations (xs.filter (fun x => v < x))) ∨
      (∃ (ys : List Int) (x : Int) (zs : List Int) (pre : List (Event σ)) (ev : Event σ),
        xs.filter (fun x => v < x) = ys ++ x :: zs ∧
        (c.upLoop migrations v xs w).trace = pre ++ [ev] ∧
        (∀ p ∈ pre, p.result = GoResult.ret none) ∧
        ev.result ≠ GoResult.ret none ∧
        (c.upLoop migrations v xs w).out = ev.result ∧
        ((ev.call = Call.forward (migrations.index x) ∧
            pre.map Event.call = upCalls migrations ys) ∨
          (ev.call = Call.write (migrations.index x) ∧
            pre.map Event.call =
              upCalls migrations ys ++ [Call.forward (migrations.index x)]))) := by
  intro xs
  induction xs with
  | nil =>
    intro w
    left
    simp [upLoop_nil, upCalls]
  | cons version rest ih =>
    intro w
    by_cases h : version ≤ v
    · have hfil : (version :: rest).filter (fun x => v < x) = rest.filter (fun x => v < x) := by
        simp [List.filter_cons, not_lt.mpr h]
      rw [upLoop_skip c migrations v version rest w h, hfil]
      exact ih w
    · have hfil : (version :: rest).filter (fun x => v < x) =
          version :: rest.filter (fun x => v < x) := by
        simp [List.filter_cons, not_le.mp h]
      rw [hfil]
      rcases hf : (migrations.index version).Up c.db w with ⟨res, w1⟩
      by_cases hres : res = GoResult.ret none
      · subst hres
        rcases hw : c.Versioner.WriteVersion (Context.WithTimeout c.Timeout)
          (migrations.index version) w1 with ⟨res2, w2⟩
        by_cases hres2 : res2 = GoResult.ret none
        · subst hres2
          rw [upLoop_step c migrations v version rest w w1 w2 h hf hw]
          rcases ih w2 with ⟨hall, hout, htr⟩ | ⟨ys, x, zs, pre, ev, hsplit, htr, hpre, hev, hout, hcase⟩
          · left
            refine ⟨?_, hout, ?_⟩
            · intro ev hev
              simp only [List.mem_cons] at hev
              rcases hev with rfl | rfl | hev
              · rfl
              · rfl
              · exact hall ev hev
            · simp only [List.map_cons, htr]
              simp [upCalls, List.flatMap_cons]
          · right
            refine ⟨version :: ys, x, zs,
              ⟨Call.forward (migrations.index version), GoResult.ret none⟩ ::
                ⟨Call.write (migrations.index version), GoResult.ret none⟩ :: pre,
              ev, ?_, ?_, ?_, hev, hout, ?_⟩
            · simp [hsplit]
            · simp [htr]
            · intro p hp
              simp only [List.mem_cons] at hp
              rcases hp with rfl | rfl | hp
              · rfl
              · rfl
              · exact hpre p hp
            · rcases hcase with ⟨hc, hm⟩ | ⟨hc, hm⟩
              · left
                refine ⟨hc, ?_⟩
                simp only [List.map_cons, hm]
                simp [upCalls, List.flatMap_cons]
              · right
                refine ⟨hc, ?_⟩
                simp only [List.map_cons, hm]
                simp [upCalls, List.flatMap_cons]
        · rw [upLoop_write_fail c migrations v version rest w w1 w2 res2 h hf hw hres2]
          right
          refine ⟨[], version, rest.filter (fun x => v < x),
            [⟨Call.forward (migrations.index version), GoResult.ret none⟩],
            ⟨Call.write (migrations.index version), res2⟩, ?_, ?_, ?_, hres2, rfl, ?_⟩
          · simp
          · simp
          · intro p hp
            simp only [List.mem_singleton] at hp
            subst hp
            rfl
          · right
            simp [upCalls]
      · rw [upLoop_forward_fail c migrations v version rest w w1 res h hf hres]
        right
        refine ⟨[], version, rest.filter (fun x => v < x), [],
          ⟨Call.forward (migrations.index version), res⟩, ?_, ?_, ?_, hres, rfl, ?_⟩
        · simp
        · simp
        · intro p hp
          simp at hp
        · left
          simp [upCalls]

/-! ## Helper lemmas: lists -/

/-- A list of successes followed by one failure can be split at a failure in
one way only. -/
theorem split_at_failure {α : Type} (P : α → Prop) :
    ∀ (pre pre2 post2 : List α) (ev ev2 : α),
      pre ++ [ev] = pre2 ++ ev2 :: post2 → (∀ p ∈ pre, P p) → ¬ P ev2 →
      pre2 = pre ∧ ev2 = ev ∧ post2 = [] := by
  intro pre
  induction pre with
  | nil =>
    intro pre2 post2 ev ev2 h _ _
    cases pre2 with
    | nil =>
      simp only [List.nil_append, List.cons.injEq] at h
      exact ⟨rfl, h.1.symm, h.2.symm⟩
    | cons b t =>
      simp at h
  | cons a t ih =>
    intro pre2 post2 ev ev2 h hpre hev2
    cases pre2 with
    | nil =>
      simp only [List.cons_append, List.nil_append, List.cons.injEq] at h
      exact absurd (h.1 ▸ hpre a (List.mem_cons_self a t)) hev2
    | cons b t2 =>
      simp only [List.cons_append, List.cons.injEq] at h
      obtain ⟨h1, h2, h3⟩ := ih t2 post2 ev ev2 h.2
        (fun p hp => hpre p (List.mem_cons_of_mem a hp)) hev2
      exact ⟨by rw [h.1, h1], h2, h3⟩

/-- In a strictly ascending list, the elements before a position are the ones
smaller than the element at that position. -/
theorem filter_lt_of_sorted_split (l ys zs : List Int) (x : Int)
    (hs : l.Sorted (fun a b => a < b)) (hl : l = ys ++ x :: zs) :
    l.filter (fun y => y < x) = ys := by
  subst hl
  have hp := List.pairwise_append.mp hs
  have hys : ∀ y ∈ ys, y < x := fun y hy => hp.2.2 y hy x (List.mem_cons_self x zs)
  have hzs : ∀ z ∈ zs, x < z := fun z hz => (List.pairwise_cons.mp hp.2.1).1 z hz
  rw [List.filter_append, List.filter_cons]
  have h1 : ys.filter (fun y => decide (y < x)) = ys :=
    List.filter_eq_self.mpr (fun y hy => by simpa using hys y hy)
  have h2 : zs.filter (fun y => decide (y < x)) = [] :=
    List.filter_eq_nil_iff.mpr (fun z hz => by simpa using le_of_lt (hzs z hz))
  simp [h1, h2]

/-! ## Helper lemmas: `Up` and `Down` after the version was read -/

theorem Up_of_read {σ : Type} (c : Client σ) (migrations : migrationMap σ) (w w1 : σ) (v : Int)
    (hread : c.Versioner.ReadVersion (Context.WithTimeout c.Timeout) w =
      (GoResult.ret (v, none), w1)) :
    c.Up migrations w = c.upLoop migrations v (migrations.Versions false).1 w1 := by
  simp [Client.Up, Client.Version, hread, Versions_asc_eq]

theorem eligible_up_sorted {σ : Type} (m : migrationMap σ) (v : Int) :
    ((m.Versions false).1.filter (fun x => v < x)).Sorted (fun a b => a < b) :=
  (Versions_asc_sorted m).filter _

theorem mem_eligible_up {σ : Type} (m : migrationMap σ) (v x : Int) :
    x ∈ (m.Versions false).1.filter (fun x => v < x) ↔ x ∈ m ∧ v < x := by
  simp [List.mem_filter, mem_Versions_asc]

/-! ## The migration runner: `Up` -/

/-- C1: when `ReadVersion` returns `v` without error and every call `Up` makes
returns nil, `Up` returns nil and the calls it makes are exactly, for each
registered version `x > v` in ascending order, `x`'s forward function followed
by the `WriteVersion` of the migration registered under `x`; so each call is a
forward function or a write of a registered version above `v`, never a backward
function or a `DeleteVersion`. -/
theorem Up_success {σ : Type} (c : Client σ) (migrations : migrationMap σ) (w w1 : σ) (v : Int)
    (hread : c.Versioner.ReadVersion (Context.WithTimeout c.Timeout) w =
      (GoResult.ret (v, none), w1))
    (hok : ∀ ev ∈ (c.Up migrations w).trace, ev.result = GoResult.ret none) :
    (c.Up migrations w).out = GoResult.ret none ∧
    (c.Up migrations w).trace.map Event.call =
      upCalls migrations ((migrations.Versions false).1.filter (fun x => v < x)) ∧
    ((migrations.Versions false).1.filter (fun x => v < x)).Sorted (fun a b => a < b) ∧
    (∀ x : Int, x ∈ (migrations.Versions false).1.filter (fun x => v < x) ↔
      x ∈ migrations ∧ v < x) ∧
    (∀ x : Int, x ∈ migrations → migrations.lookup x = some (migrations.index x)) ∧
    (∀ call ∈ (c.Up migrations w).trace.map Event.call, ∃ x : Int, x ∈ migrations ∧ v < x ∧
      (call = Call.forward (migrations.index x) ∨ call = Call.write (migrations.index x))) := by
  rw [Up_of_read c migrations w w1 v hread] at hok ⊢
  have hcalls : (c.upLoop migrations v (migrations.Versions false).1 w1).out = GoResult.ret none ∧
      (c.upLoop migrations v (migrations.Versions false).1 w1).trace.map Event.call =
        upCalls migrations ((migrations.Versions false).1.filter (fun x => v < x)) := by
    rcases upLoop_shape c migrations v (migrations.Versions false).1 w1 with
      ⟨_, hout, htr⟩ | ⟨ys, x, zs, pre, ev, _, htr, _, hev, _, _⟩
    · exact ⟨hout, htr⟩
    · exact absurd (hok ev (by rw [htr]; simp)) hev
  refine ⟨hcalls.1, hcalls.2, eligible_up_sorted migrations v, mem_eligible_up migrations v,
    index_of_mem migrations, ?_⟩
  intro call hcall
  rw [hcalls.2] at hcall
  simp only [upCalls, List.mem_flatMap, List.mem_cons, List.mem_singleton] at hcall
  obtain ⟨x, hx, hc⟩ := hcall
  have hx2 := (mem_eligible_up migrations v x).mp hx
  refine ⟨x, hx2.1, hx2.2, ?_⟩
  rcases hc with hc | hc | hc
  · exact Or.inl hc
  · exact Or.inr hc
  · simp at hc

/-- C2: when `ReadVersion` returns `v` without error and a call made by `Up`
returns the error `e`, that call is the last one of the run and `Up` returns
`e`; the call is the forward function or the `WriteVersion` of a registered
version `x > v`; before it `Up` made exactly the forward call and the write of
every registered version strictly between `v` and `x`, in ascending order, all
of which returned nil (plus the successful forward call of `x` when it is the
write that failed).  So nothing is called for a version above `x`, and no write
is made for `x` when its forward function failed. -/
theorem Up_first_failure {σ : Type} (c : Client σ) (migrations : migrationMap σ) (w w1 : σ)
    (v : Int) (pre post : List (Event σ)) (ev : Event σ) (e : Err)
    (hread : c.Versioner.ReadVersion (Context.WithTimeout c.Timeout) w =
      (GoResult.ret (v, none), w1))
    (htrace : (c.Up migrations w).trace = pre ++ ev :: post)
    (hev : ev.result = GoResult.ret (some e)) :
    (c.Up migrations w).out = GoResult.ret (some e) ∧
    post = [] ∧
    (∀ p ∈ pre, p.result = GoResult.ret none) ∧
    ∃ x : Int, x ∈ migrations ∧ v < x ∧
      ((ev.call = Call.forward (migrations.index x) ∧
          pre.map Event.call =
            upCalls migrations
              (((migrations.Versions false).1.filter (fun y => v < y)).filter
                (fun y => y < x))) ∨
        (ev.call = Call.write (migrations.index x) ∧
          pre.map Event.call =
            upCalls migrations
              (((migrations.Versions false).1.filter (fun y => v < y)).filter
                (fun y => y < x)) ++ [Call.forward (migrations.index x)])) := by
  rw [Up_of_read c migrations w w1 v hread] at htrace ⊢
  have hbad : ¬ ev.result = GoResult.ret none := by rw [hev]; simp
  rcases upLoop_shape c migrations v (migrations.Versions false).1 w1 with
    ⟨hall, _, _⟩ | ⟨ys, x, zs, pre0, ev0, hsplit, htr, hpre0, _, hout, hcase⟩
  · exact absurd (hall ev (by rw [htrace]; simp)) hbad
  · rw [htr] at htrace
    obtain ⟨h1, h2, h3⟩ := split_at_failure (fun p : Event σ => p.result = GoResult.ret none)
      pre0 pre post ev0 ev htrace hpre0 hbad
    subst h1 h2 h3
    have hys := filter_lt_of_sorted_split _ ys zs x (eligible_up_sorted migrations v) hsplit
    have hx : x ∈ (migrations.Versions false).1.filter (fun x => v < x) := by
      rw [hsplit]; simp
    have hx2 := (mem_eligible_up migrations v x).mp hx
    refine ⟨by rw [hout, hev], rfl, hpre0, x, hx2.1, hx2.2, ?_⟩
    rw [hys]
    exact hcase

/-- C4: when `ReadVersion` returns an error `e`, `Up` returns `e` and `Down`
returns `e`, and neither makes any call: no forward function, no backward
function, no `WriteVersion`, no `DeleteVersion`. -/
theorem Up_Down_read_error {σ : Type} (c : Client σ) (migrations : migrationMap σ) (w w1 : σ)
    (v : Int) (e : Err)
    (hread : c.Versioner.ReadVersion (Context.WithTimeout c.Timeout) w =
      (GoResult.ret (v, some e), w1)) :
    (c.Up migrations w).out = GoResult.ret (some e) ∧ (c.Up migrations w).trace = [] ∧
    (c.Down migrations w).out = GoResult.ret (some e) ∧ (c.Down migrations w).trace = [] := by
  simp [Client.Up, Client.Down, Client.Version, hread]

/-! ## Helper lemmas: one iteration of the `Down` loop -/

theorem downLoop_nil {σ : Type} (c : Client σ) (migrations : migrationMap σ) (v : Int) (w : σ) :
    c.downLoop migrations v [] w = ⟨GoResult.ret none, w, []⟩ := by
  simp [Client.downLoop]

theorem downLoop_skip {σ : Type} (c : Client σ) (migrations : migrationMap σ) (v : Int)
    (version : Int) (rest : List Int) (w : σ) (h : version > v) :
    c.downLoop migrations v (version :: rest) w = c.downLoop migrations v rest w := by
  simp [Client.downLoop, h]

theorem downLoop_backward_fail {σ : Type} (c : Client σ) (migrations : migrationMap σ) (v : Int)
    (version : Int) (rest : List Int) (w w1 : σ) (res : Outcome) (h : ¬ version > v)
    (hf : (migrations.index version).Down c.db w = (res, w1)) (hres : res ≠ GoResult.ret none) :
    c.downLoop migrations v (version :: rest) w =
      ⟨res, w1, [⟨Call.backward (migrations.index version), res⟩]⟩ := by
  rcases res with (_ | e) | _
  · exact absurd rfl hres
  · simp [Client.downLoop, h, hf]
  · simp [Client.downLoop, h, hf]

theorem downLoop_delete_fail {σ : Type} (c : Client σ) (migrations : migrationMap σ) (v : Int)
    (version : Int) (rest : List Int) (w w1 w2 : σ) (res : Outcome) (h : ¬ version > v)
    (hf : (migrations.index version).Down c.db w = (GoResult.ret none, w1))
    (hw : c.Versioner.DeleteVersion (Context.WithTimeout c.Timeout) (migrations.index version) w1
      = (res, w2))
    (hres : res ≠ GoResult.ret none) :
    c.downLoop migrations v (version :: rest) w =
      ⟨res, w2, [⟨Call.backward (migrations.index version), GoResult.ret none⟩,
        ⟨Call.delete (migrations.index version), res⟩]⟩ := by
  rcases res with (_ | e) | _
  · exact absurd rfl hres
  · simp [Client.downLoop, h, hf, hw]
  · simp [Client.downLoop, h, hf, hw]

theorem downLoop_step {σ : Type} (c : Client σ) (migrations : migrationMap σ) (v : Int)
    (version : Int) (rest : List Int) (w w1 w2 : σ) (h : ¬ version > v)
    (hf : (migrations.index version).Down c.db w = (GoResult.ret none, w1))
    (hw : c.Versioner.DeleteVersion (Context.WithTimeout c.Timeout) (migrations.index version) w1
      = (GoResult.ret none, w2)) :
    c.downLoop migrations v (version :: rest) w =
      ⟨(c.downLoop migrations v rest w2).out, (c.downLoop migrations v rest w2).world,
        ⟨Call.backward (migrations.index version), GoResult.ret none⟩ ::
          ⟨Call.delete (migrations.index version), GoResult.ret none⟩ ::
            (c.downLoop migrations v rest w2).trace⟩ := by
  simp [Client.downLoop, h, hf, hw]

/-! ## Helper lemmas: the shape of a run of the `Down` loop -/

/-- Either every call of the loop succeeded, the loop returned nil and made
exactly the expected calls for the eligible versions; or the trace ends with the
one call that did not return nil, whose result is the result of the loop, after
the complete steps of the eligible versions before it. -/
theorem downLoop_shape {σ : Type} (c : Client σ) (migrations : migrationMap σ) (v : Int) :
    ∀ (xs : List Int) (w : σ),
      ((∀ ev ∈ (c.downLoop migrations v xs w).trace, ev.result = GoResult.ret none) ∧
        (c.downLoop migrations v xs w).out = GoResult.ret none ∧
        (c.downLoop migrations v xs w).trace.map Event.call =
          downCalls migrations (xs.filter (fun x => x ≤ v))) ∨
      (∃ (ys : List Int) (x : Int) (zs : List Int) (pre : List (Event σ)) (ev : Event σ),
        xs.filter (fun x => x ≤ v) = ys ++ x :: zs ∧
        (c.downLoop migrations v xs w).trace = pre ++ [ev] ∧
        (∀ p ∈ pre, p.result = GoResult.ret none) ∧
        ev.result ≠ GoResult.ret none ∧
        (c.downLoop migrations v xs w).out = ev.result ∧
        ((ev.call = Call.backward (migrations.index x) ∧
            pre.map Event.call = downCalls migrations ys) ∨
          (ev.call = Call.delete (migrations.index x) ∧
            pre.map Event.call =
              downCalls migrations ys ++ [Call.backward (migrations.index x)]))) := by
  intro xs
  induction xs with
  | nil =>
    intro w
    left
    simp [downLoop_nil, downCalls]
  | cons version rest ih =>
    intro w
    by_cases h : version > v
    · have hfil : (version :: rest).filter (fun x => x ≤ v) = rest.filter (fun x => x ≤ v) := by
        simp [List.filter_cons, not_le.mpr h]
      rw [downLoop_skip c migrations v version rest w h, hfil]
      exact ih w
    · have hfil : (version :: rest).filter (fun x => x ≤ v) =
          version :: rest.filter (fun x => x ≤ v) := by
        simp [List.filter_cons, not_lt.mp h]
      rw [hfil]
      rcases hf : (migrations.index version).Down c.db w with ⟨res, w1⟩
      by_cases hres : res = GoResult.ret none
      · subst hres
        rcases hw : c.Versioner.DeleteVersion (Context.WithTimeout c.Timeout)
          (migrations.index version) w1 with ⟨res2, w2⟩
        by_cases hres2 : res2 = GoResult.ret none
        · subst hres2
          rw [downLoop_step c migrations v version rest w w1 w2 h hf hw]
          rcases ih w2 with ⟨hall, hout, htr⟩ | ⟨ys, x, zs, pre, ev, hsplit, htr, hpre, hev, hout, hcase⟩
          · left
            refine ⟨?_, hout, ?_⟩
            · intro ev hev
              simp only [List.mem_cons] at hev
              rcases hev with rfl | rfl | hev
              · rfl
              · rfl
              · exact hall ev hev
            · simp only [List.map_cons, htr]
              simp [downCalls, List.flatMap_cons]
          · right
            refine ⟨version :: ys, x, zs,
              ⟨Call.backward (migrations.index version), GoResult.ret none⟩ ::
                ⟨Call.delete (migrations.index version), GoResult.ret none⟩ :: pre,
              ev, ?_, ?_, ?_, hev, hout, ?_⟩
            · simp [hsplit]
            · simp [htr]
            · intro p hp
              simp only [List.mem_cons] at hp
              rcases hp with rfl | rfl | hp
              · rfl
              · rfl
              · exact hpre p hp
            · rcases hcase with ⟨hc, hm⟩ | ⟨hc, hm⟩
              · left
                refine ⟨hc, ?_⟩
                simp only [List.map_cons, hm]
                simp [downCalls, List.flatMap_cons]
              · right
                refine ⟨hc, ?_⟩
                simp only [List.map_cons, hm]
                simp [downCalls, List.flatMap_cons]
        · rw [downLoop_delete_fail c migrations v version rest w w1 w2 res2 h hf hw hres2]
          right
          refine ⟨[], version, rest.filter (fun x => x ≤ v),
            [⟨Call.backward (migrations.index version), GoResult.ret none⟩],
            ⟨Call.delete (migrations.index version), res2⟩, ?_, ?_, ?_, hres2, rfl, ?_⟩
          · simp
          · simp
          · intro p hp
            simp only [List.mem_singleton] at hp
            subst hp
            rfl
          · right
            simp [downCalls]
      · rw [downLoop_backward_fail c migrations v version rest w w1 res h hf hres]
        right
        refine ⟨[], version, rest.filter (fun x => x ≤ v), [],
          ⟨Call.backward (migrations.index version), res⟩, ?_, ?_, ?_, hres, rfl, ?_⟩
        · simp
        · simp
        · intro p hp
          simp at hp
        · left
          simp [downCalls]

/-! ## The migration runner: `Down` -/

theorem Down_of_read {σ : Type} (c : Client σ) (migrations : migrationMap σ) (w w1 : σ)
    (v : Int)
    (hread : c.Versioner.ReadVersion (Context.WithTimeout c.Timeout) w =
      (GoResult.ret (v, none), w1)) :
    c.Down migrations w = c.downLoop migrations v (migrations.Versions false).1 w1 := by
  simp [Client.Down, Client.Version, hread, Versions_asc_eq]

theorem eligible_down_sorted {σ : Type} (m : migrationMap σ) (v : Int) :
    ((m.Versions false).1.filter (fun x => x ≤ v)).Sorted (fun a b => a < b) :=
  (Versions_asc_sorted m).filter _

theorem mem_eligible_down {σ : Type} (m : migrationMap σ) (v x : Int) :
    x ∈ (m.Versions false).1.filter (fun x => x ≤ v) ↔ x ∈ m ∧ x ≤ v := by
  simp [List.mem_filter, mem_Versions_asc]

theorem downCalls_split {σ : Type} (m : migrationMap σ) (ys zs : List Int) (x : Int) :
    downCalls m (ys ++ x :: zs) =
      downCalls m ys ++ [Call.backward (m.index x), Call.delete (m.index x)] ++
        downCalls m zs := by
  simp [downCalls, List.flatMap_append, List.flatMap_cons]

/-- C3: when `ReadVersion` returns `v` without error, `Down` walks the registered
versions `x ≤ v` in ascending order, calling `x`'s backward function and then
`DeleteVersion` with the migration registered under `x`: the calls it makes are
an initial part of that sequence (so never a forward function or a
`WriteVersion`); when every call returns nil it makes all of them and returns
nil; a call that returns an error `e` is the last call of the run, `Down`
returns `e`, everything before it returned nil and is exactly the complete
steps of the eligible versions below the failing one (plus its successful
backward call when it is the delete that failed). -/
theorem Down_run {σ : Type} (c : Client σ) (migrations : migrationMap σ) (w w1 : σ) (v : Int)
    (hread : c.Versioner.ReadVersion (Context.WithTimeout c.Timeout) w =
      (GoResult.ret (v, none), w1)) :
    ((migrations.Versions false).1.filter (fun x => x ≤ v)).Sorted (fun a b => a < b) ∧
    (∀ x : Int, x ∈ (migrations.Versions false).1.filter (fun x => x ≤ v) ↔
      x ∈ migrations ∧ x ≤ v) ∧
    (∀ x : Int, x ∈ migrations → migrations.lookup x = some (migrations.index x)) ∧
    (∃ rest : List (Call σ), (c.Down migrations w).trace.map Event.call ++ rest =
      downCalls migrations ((migrations.Versions false).1.filter (fun x => x ≤ v))) ∧
    (∀ call ∈ (c.Down migrations w).trace.map Event.call, ∃ x : Int, x ∈ migrations ∧ x ≤ v ∧
      (call = Call.backward (migrations.index x) ∨ call = Call.delete (migrations.index x))) ∧
    ((∀ ev ∈ (c.Down migrations w).trace, ev.result = GoResult.ret none) →
      (c.Down migrations w).out = GoResult.ret none ∧
      (c.Down migrations w).trace.map Event.call =
        downCalls migrations ((migrations.Versions false).1.filter (fun x => x ≤ v))) ∧
    (∀ (pre post : List (Event σ)) (ev : Event σ) (e : Err),
      (c.Down migrations w).trace = pre ++ ev :: post → ev.result = GoResult.ret (some e) →
      (c.Down migrations w).out = GoResult.ret (some e) ∧
      post = [] ∧
      (∀ p ∈ pre, p.result = GoResult.ret none) ∧
      ∃ x : Int, x ∈ migrations ∧ x ≤ v ∧
        ((ev.call = Call.backward (migrations.index x) ∧
            pre.map Event.call =
              downCalls migrations
                (((migrations.Versions false).1.filter (fun y => y ≤ v)).filter
                  (fun y => y < x))) ∨
          (ev.call = Call.delete (migrations.index x) ∧
            pre.map Event.call =
              downCalls migrations
                (((migrations.Versions false).1.filter (fun y => y ≤ v)).filter
                  (fun y => y < x)) ++ [Call.backward (migrations.index x)]))) := by
  rw [Down_of_read c migrations w w1 v hread]
  have hshape := downLoop_shape c migrations v (migrations.Versions false).1 w1
  have hpre : ∃ rest : List (Call σ),
      (c.downLoop migrations v (migrations.Versions false).1 w1).trace.map Event.call ++ rest =
        downCalls migrations ((migrations.Versions false).1.filter (fun x => x ≤ v)) := by
    rcases hshape with ⟨_, _, htr⟩ | ⟨ys, x, zs, pre0, ev0, hsplit, htr, _, _, _, hcase⟩
    · exact ⟨[], by rw [htr]; simp⟩
    · rw [htr, hsplit, downCalls_split]
      rcases hcase with ⟨hc, hm⟩ | ⟨hc, hm⟩
      · exact ⟨Call.delete (migrations.index x) :: downCalls migrations zs, by simp [hc, hm]⟩
      · exact ⟨downCalls migrations zs, by simp [hc, hm]⟩
  refine ⟨eligible_down_sorted migrations v, mem_eligible_down migrations v,
    index_of_mem migrations, hpre, ?_, ?_, ?_⟩
  · intro call hcall
    obtain ⟨rest, hrest⟩ := hpre
    have hmem : call ∈ downCalls migrations
        ((migrations.Versions false).1.filter (fun x => x ≤ v)) := by
      rw [← hrest]; exact List.mem_append_left _ hcall
    simp only [downCalls, List.mem_flatMap, List.mem_cons, List.mem_singleton] at hmem
    obtain ⟨x, hx, hc⟩ := hmem
    have hx2 := (mem_eligible_down migrations v x).mp hx
    refine ⟨x, hx2.1, hx2.2, ?_⟩
    rcases hc with hc | hc | hc
    · exact Or.inl hc
    · exact Or.inr hc
    · simp at hc
  · intro hok
    rcases hshape with ⟨_, hout, htr⟩ | ⟨ys, x, zs, pre0, ev0, _, htr, _, hev, _, _⟩
    · exact ⟨hout, htr⟩
    · exact absurd (hok ev0 (by rw [htr]; simp)) hev
  · intro pre post ev e htrace hev
    have hbad : ¬ ev.result = GoResult.ret none := by rw [hev]; simp
    rcases hshape with ⟨hall, _, _⟩ | ⟨ys, x, zs, pre0, ev0, hsplit, htr, hpre0, _, hout, hcase⟩
    · exact absurd (hall ev (by rw [htrace]; simp)) hbad
    · rw [htr] at htrace
      obtain ⟨h1, h2, h3⟩ := split_at_failure (fun p : Event σ => p.result = GoResult.ret none)
        pre0 pre post ev0 ev htrace hpre0 hbad
      subst h1 h2 h3
      have hys := filter_lt_of_sorted_split _ ys zs x (eligible_down_sorted migrations v) hsplit
      have hx : x ∈ (migrations.Versions false).1.filter (fun x => x ≤ v) := by
        rw [hsplit]; simp
      have hx2 := (mem_eligible_down migrations v x).mp hx
      refine ⟨by rw [hout, hev], rfl, hpre0, x, hx2.1, hx2.2, ?_⟩
      rw [hys]
      exact hcase

/-! ## Instances of the registry and runner theorems -/

theorem Register_fresh_witness :
    (3 : Int) ∉ registry12 ∧
    (Register registry12 3 okFunc failFunc).1 = none ∧
    (Register registry12 3 okFunc failFunc).2.lookup 3 =
      some { ID := 0, Version := 3, Up := okFunc, Down := failFunc } :=
  ⟨by decide, (Register_fresh registry12 3 okFunc failFunc (by decide)).1,
    (Register_fresh registry12 3 okFunc failFunc (by decide)).2.1⟩

theorem Register_duplicate_witness :
    (1 : Int) ∈ registry12 ∧
    Register registry12 1 failFunc failFunc = (some Err.ErrDuplicatedMigration, registry12) :=
  ⟨by decide, (Register_duplicate registry12 1 failFunc failFunc (by decide)).1⟩

theorem Up_success_witness :
    memClient.Versioner.ReadVersion (Context.WithTimeout memClient.Timeout) emptyStore =
      (GoResult.ret (0, none), emptyStore) ∧
    (∀ ev ∈ (memClient.Up registry12 emptyStore).trace, ev.result = GoResult.ret none) ∧
    (memClient.Up registry12 emptyStore).out = GoResult.ret none ∧
    (memClient.Up registry12 emptyStore).trace.map Event.call =
      upCalls registry12 ((registry12.Versions false).1.filter (fun x => 0 < x)) :=
  ⟨by decide, by decide,
    (Up_success memClient registry12 emptyStore emptyStore 0 (by decide) (by decide)).1,
    (Up_success memClient registry12 emptyStore emptyStore 0 (by decide) (by decide)).2.1⟩

theorem Up_first_failure_witness :
    memClient.Versioner.ReadVersion (Context.WithTimeout memClient.Timeout) emptyStore =
      (GoResult.ret (0, none), emptyStore) ∧
    (memClient.Up registryFail2 emptyStore).trace =
      [⟨Call.forward (registryFail2.index 1), GoResult.ret none⟩,
        ⟨Call.write (registryFail2.index 1), GoResult.ret none⟩] ++
      ⟨Call.forward (registryFail2.index 2), GoResult.ret (some Err.ErrClientDisconnected)⟩ ::
        [] ∧
    (memClient.Up registryFail2 emptyStore).out =
      GoResult.ret (some Err.ErrClientDisconnected) :=
  ⟨by decide, rfl,
    (Up_first_failure memClient registryFail2 emptyStore emptyStore 0
      [⟨Call.forward (registryFail2.index 1), GoResult.ret none⟩,
        ⟨Call.write (registryFail2.index 1), GoResult.ret none⟩] []
      ⟨Call.forward (registryFail2.index 2), GoResult.ret (some Err.ErrClientDisconnected)⟩
      Err.ErrClientDisconnected (by decide) rfl rfl).1⟩

theorem Down_run_witness :
    memClient.Versioner.ReadVersion (Context.WithTimeout memClient.Timeout) store12 =
      (GoResult.ret (2, none), store12) ∧
    ∃ rest : List (Call MemStore),
      (memClient.Down registry12 store12).trace.map Event.call ++ rest =
        downCalls registry12 ((registry12.Versions false).1.filter (fun x => x ≤ 2)) :=
  ⟨by decide, (Down_run memClient registry12 store12 store12 2 (by decide)).2.2.2.1⟩

theorem Up_Down_read_error_witness :
    disconnectedClient.Versioner.ReadVersion (Context.WithTimeout disconnectedClient.Timeout)
        emptyStore = (GoResult.ret (-1, some Err.ErrClientDisconnected), emptyStore) ∧
    (disconnectedClient.Up registry12 emptyStore).out =
      GoResult.ret (some Err.ErrClientDisconnected) ∧
    (disconnectedClient.Up registry12 emptyStore).trace = [] ∧
    (disconnectedClient.Down registry12 emptyStore).out =
      GoResult.ret (some Err.ErrClientDisconnected) ∧
    (disconnectedClient.Down registry12 emptyStore).trace = [] :=
  ⟨by decide,
    Up_Down_read_error disconnectedClient registry12 emptyStore emptyStore (-1)
      Err.ErrClientDisconnected (by decide)⟩

/-! ## The version store: `ReadVersion` -/

/-- C8: given the find-one result `q` and what decoding it into the zero
`Migration` reports (error `err`, destination `dest` afterwards),
`version.ReadVersion` returns `(dest.Version, nil)` when `err` is
`ErrNoDocuments`, which is `(0, nil)` when the destination was left untouched;
returns `(dest.Version, nil)` when `err` is nil; returns `(-1, e)` with the very
same `e` for every other error; so its error is nil exactly when `err` is nil
or `ErrNoDocuments`. -/
theorem ReadVersion_result {σ : Type} (v : version σ) (ctx : Context) (w w1 w2 : σ)
    (q : querySingleResult σ) (err : Option Err) (dest : Migration σ)
    (hfind : v.Collection.FindOne ctx []
      [optionsFindOne.SetSort [("version", BsonValue.int (-1))]] w = (GoResult.ret q, w1))
    (hdec : q.Decode Migration.zero w1 = ((GoResult.ret err, dest), w2)) :
    (err = some Err.ErrNoDocuments →
      v.ReadVersion ctx w = (GoResult.ret (dest.Version, none), w2) ∧
      (dest = Migration.zero → v.ReadVersion ctx w = (GoResult.ret (0, none), w2))) ∧
    (err = none → v.ReadVersion ctx w = (GoResult.ret (dest.Version, none), w2)) ∧
    (∀ e : Err, err = some e → e ≠ Err.ErrNoDocuments →
      v.ReadVersion ctx w = (GoResult.ret (-1, some e), w2)) ∧
    ((∃ n : Int, v.ReadVersion ctx w = (GoResult.ret (n, none), w2)) ↔
      (err = none ∨ err = some Err.ErrNoDocuments)) := by
  have hnone : err = none → v.ReadVersion ctx w = (GoResult.ret (dest.Version, none), w2) := by
    intro h
    subst h
    simp [version.ReadVersion, hfind, hdec]
  have hnodoc : err = some Err.ErrNoDocuments →
      v.ReadVersion ctx w = (GoResult.ret (dest.Version, none), w2) := by
    intro h
    subst h
    simp [version.ReadVersion, hfind, hdec]
  have hother : ∀ e : Err, err = some e → e ≠ Err.ErrNoDocuments →
      v.ReadVersion ctx w = (GoResult.ret (-1, some e), w2) := by
    intro e h hne
    subst h
    cases e with
    | ErrNoDocuments => exact absurd rfl hne
    | ErrDuplicatedMigration => simp [version.ReadVersion, hfind, hdec]
    | ErrClientDisconnected => simp [version.ReadVersion, hfind, hdec]
    | other code => simp [version.ReadVersion, hfind, hdec]
  refine ⟨fun h => ⟨hnodoc h, fun hd => ?_⟩, hnone, hother, ?_⟩
  · rw [hnodoc h, hd]
    rfl
  · constructor
    · rintro ⟨n, hn⟩
      rcases err with _ | e
      · exact Or.inl rfl
      · by_cases he : e = Err.ErrNoDocuments
        · exact Or.inr (by rw [he])
        · rw [hother e rfl he] at hn
          simp at hn
    · rintro (h | h)
      · exact ⟨dest.Version, hnone h⟩
      · exact ⟨dest.Version, hnodoc h⟩

theorem ReadVersion_result_witness :
    memCollection.FindOne (Context.WithTimeout 2000000000) []
      [optionsFindOne.SetSort [("version", BsonValue.int (-1))]] store12 =
        (GoResult.ret (memFind store12.docs), store12) ∧
    (memFind store12.docs).Decode Migration.zero store12 =
      ((GoResult.ret none, { (Migration.zero : Migration MemStore) with Version := 2 }),
        store12) ∧
    version.ReadVersion { Collection := memCollection } (Context.WithTimeout 2000000000) store12 =
      (GoResult.ret (2, none), store12) :=
  ⟨rfl, rfl,
    (ReadVersion_result { Collection := memCollection } (Context.WithTimeout 2000000000)
      store12 store12 store12 (memFind store12.docs) none
      { (Migration.zero : Migration MemStore) with Version := 2 } rfl rfl).2.1 rfl⟩

/-! ## Helper lemmas: the marker store -/

theorem foldl_max_spec : ∀ (xs : List Int) (x : Int),
    x ≤ xs.foldl max x ∧ (∀ y ∈ xs, y ≤ xs.foldl max x) ∧
      (xs.foldl max x = x ∨ xs.foldl max x ∈ xs) := by
  intro xs
  induction xs with
  | nil => intro x; simp
  | cons a t ih =>
    intro x
    obtain ⟨h1, h2, h3⟩ := ih (max x a)
    simp only [List.foldl_cons, List.mem_cons]
    refine ⟨le_trans (le_max_left x a) h1, ?_, ?_⟩
    · intro y hy
      rcases hy with rfl | hy
      · exact le_trans (le_max_right x y) h1
      · exact h2 y hy
    · rcases h3 with h3 | h3
      · rcases max_choice x a with hm | hm
        · left; rw [h3, hm]
        · right; left; rw [h3, hm]
      · right; right; exact h3

theorem greatestVersion_ge (l : List Int) (y : Int) (hy : y ∈ l) : y ≤ greatestVersion l := by
  cases l with
  | nil => simp at hy
  | cons x xs =>
    obtain ⟨h1, h2, _⟩ := foldl_max_spec xs x
    simp only [List.mem_cons] at hy
    rcases hy with rfl | hy
    · exact h1
    · exact h2 y hy

theorem greatestVersion_mem (l : List Int) (hl : l ≠ []) : greatestVersion l ∈ l := by
  cases l with
  | nil => exact absurd rfl hl
  | cons x xs =>
    obtain ⟨_, _, h3⟩ := foldl_max_spec xs x
    simp only [greatestVersion, List.mem_cons]
    rcases h3 with h3 | h3
    · exact Or.inl h3
    · exact Or.inr h3

theorem index_version_of_keyed {σ : Type} (m : migrationMap σ) (hkey : KeyedByVersion m)
    (x : Int) (hx : x ∈ m) : (m.index x).Version = x := by
  have hl := index_of_mem m x hx
  have hmem : (⟨x, m.index x⟩ : Sigma (fun _ : Int => Migration σ)) ∈ m.entries :=
    AList.mem_lookup_iff.mp (by rw [hl]; exact rfl)
  exact hkey _ hmem

theorem index_mem_entries {σ : Type} (m : migrationMap σ) (x : Int) (hx : x ∈ m) :
    (⟨x, m.index x⟩ : Sigma (fun _ : Int => Migration σ)) ∈ m.entries := by
  have hl := index_of_mem m x hx
  exact AList.mem_lookup_iff.mp (by rw [hl]; exact rfl)

/-! ## Helper lemmas: the world after the `Up` loop -/

theorem upLoop_skip_all {σ : Type} (c : Client σ) (migrations : migrationMap σ) (v : Int) :
    ∀ (xs : List Int) (w : σ), (∀ x ∈ xs, x ≤ v) →
      c.upLoop migrations v xs w = ⟨GoResult.ret none, w, []⟩ := by
  intro xs
  induction xs with
  | nil => intro w _; exact upLoop_nil c migrations v w
  | cons a t ih =>
    intro w h
    rw [upLoop_skip c migrations v a t w (h a (List.mem_cons_self a t))]
    exact ih w (fun x hx => h x (List.mem_cons_of_mem a hx))

/-- A step of the loop that is not skipped and after which the loop returns nil:
the forward function and the write returned nil, and the rest of the loop
returned nil. -/
theorem upLoop_ok_inv {σ : Type} (c : Client σ) (migrations : migrationMap σ) (v : Int)
    (version : Int) (rest : List Int) (w : σ) (h : ¬ version ≤ v)
    (hout : (c.upLoop migrations v (version :: rest) w).out = GoResult.ret none) :
    ∃ w1 w2 : σ,
      (migrations.index version).Up c.db w = (GoResult.ret none, w1) ∧
      c.Versioner.WriteVersion (Context.WithTimeout c.Timeout) (migrations.index version) w1 =
        (GoResult.ret none, w2) ∧
      (c.upLoop migrations v rest w2).out = GoResult.ret none ∧
      (c.upLoop migrations v (version :: rest) w).world = (c.upLoop migrations v rest w2).world := by
  rcases hf : (migrations.index version).Up c.db w with ⟨res, w1⟩
  by_cases hres : res = GoResult.ret none
  · subst hres
    rcases hw : c.Versioner.WriteVersion (Context.WithTimeout c.Timeout)
      (migrations.index version) w1 with ⟨res2, w2⟩
    by_cases hres2 : res2 = GoResult.ret none
    · subst hres2
      rw [upLoop_step c migrations v version rest w w1 w2 h hf hw] at hout ⊢
      exact ⟨w1, w2, rfl, hw, hout, rfl⟩
    · rw [upLoop_write_fail c migrations v version rest w w1 w2 res2 h hf hw hres2] at hout
      exact absurd hout hres2
  · rw [upLoop_forward_fail c migrations v version rest w w1 res h hf hres] at hout
    exact absurd hout hres

/-- When the loop returns nil, the world it leaves is the one left by the
successful write of the last eligible version. -/
theorem upLoop_last_write {σ : Type} (c : Client σ) (migrations : migrationMap σ) (v : Int) :
    ∀ (xs : List Int) (w : σ) (ys : List Int) (x : Int),
      (c.upLoop migrations v xs w).out = GoResult.ret none →
      xs.filter (fun x => v < x) = ys ++ [x] →
      ∃ w0 : σ, c.Versioner.WriteVersion (Context.WithTimeout c.Timeout) (migrations.index x) w0 =
        (GoResult.ret none, (c.upLoop migrations v xs w).world) := by
  intro xs
  induction xs with
  | nil =>
    intro w ys x _ hf
    simp at hf
  | cons version rest ih =>
    intro w ys x hout hfil
    by_cases h : version ≤ v
    · have hfil2 : (version :: rest).filter (fun x => v < x) = rest.filter (fun x => v < x) := by
        simp [List.filter_cons, not_lt.mpr h]
      rw [hfil2] at hfil
      rw [upLoop_skip c migrations v version rest w h] at hout ⊢
      exact ih w ys x hout hfil
    · have hfil2 : (version :: rest).filter (fun x => v < x) =
          version :: rest.filter (fun x => v < x) := by
        simp [List.filter_cons, not_le.mp h]
      rw [hfil2] at hfil
      obtain ⟨w1, w2, _, hw, hrest, hworld⟩ := upLoop_ok_inv c migrations v version rest w h hout
      rw [hworld]
      cases ys with
      | nil =>
        simp only [List.nil_append, List.cons.injEq] at hfil
        obtain ⟨hvx, hnil⟩ := hfil
        subst hvx
        have hall : ∀ y ∈ rest, y ≤ v := by
          intro y hy
          have := List.filter_eq_nil_iff.mp hnil y hy
          simpa using this
        rw [upLoop_skip_all c migrations v rest w2 hall]
        exact ⟨w1, hw⟩
      | cons y ys2 =>
        simp only [List.cons_append, List.cons.injEq] at hfil
        exact ih w2 ys2 x hrest hfil.2

/-! ## Helper lemmas: the in-memory collection is a marker store -/

theorem docVersion_version (n : Int) (rest : BsonDoc) :
    docVersion (("version", BsonValue.int n) :: rest) = some n := by
  simp [docVersion, List.lookup]

theorem matches_version (n : Int) (d : MarkerDoc) :
    MarkerDoc.matches [("version", BsonValue.int n)] d = decide (d.version = n) := by
  simp [MarkerDoc.matches, docVersion_version]

theorem matches_all (d : MarkerDoc) : MarkerDoc.matches [] d = true := by
  simp [MarkerDoc.matches, docVersion, List.lookup]

theorem map_version_eraseP (n : Int) : ∀ docs : List MarkerDoc,
    (docs.eraseP (fun d => decide (d.version = n))).map MarkerDoc.version =
      (docs.map MarkerDoc.version).erase n := by
  intro docs
  induction docs with
  | nil => simp
  | cons d t ih =>
    by_cases h : d.version = n
    · simp [List.eraseP_cons, h]
    · have h2 : ¬ (d.version == n) = true := by simpa using h
      simp [List.eraseP_cons, List.erase_cons, h, h2, ih]

theorem memVersioner_read (ctx : Context) (w : MemStore) :
    memVersioner.ReadVersion ctx w = (GoResult.ret (greatestVersion (memMarkers w), none), w) := by
  have hf : w.docs.filter (MarkerDoc.matches []) = w.docs :=
    List.filter_eq_self.mpr (fun d _ => matches_all d)
  rcases hd : w.docs with _ | ⟨d, ds⟩
  · simp [memVersioner, version.toVersioner, version.ReadVersion, memCollection, memFind, hf, hd,
      memMarkers, greatestVersion, Migration.zero]
  · rw [hd] at hf
    simp [memVersioner, version.toVersioner, version.ReadVersion, memCollection, memFind, hf, hd,
      memMarkers]

theorem memVersioner_write (ctx : Context) (m : Migration MemStore) (w : MemStore) :
    memVersioner.WriteVersion ctx m w =
      (GoResult.ret none, { w with docs := w.docs ++ [⟨m.Version, w.clock⟩] }) := by
  simp [memVersioner, version.toVersioner, version.WriteVersion, memCollection,
    docVersion_version, docTimestamp, List.lookup]

theorem memVersioner_delete (ctx : Context) (m : Migration MemStore) (w : MemStore) :
    memVersioner.DeleteVersion ctx m w =
      (GoResult.ret none,
        { w with docs := w.docs.eraseP (fun d => decide (d.version = m.Version)) }) := by
  have hm : MarkerDoc.matches [("version", BsonValue.int m.Version)] =
      fun d => decide (d.version = m.Version) := funext (matches_version m.Version)
  simp [memVersioner, version.toVersioner, version.DeleteVersion, memCollection, hm]

/-- The package's version store over the in-memory collection behaves as a
marker store. -/
theorem memVersioner_markerStore : MarkerStore memVersioner memMarkers where
  read := fun ctx w => by rw [memVersioner_read]; exact ⟨rfl, rfl⟩
  write := fun ctx m w _ => by rw [memVersioner_write]; simp [memMarkers]
  delete := fun ctx m w _ => by
    rw [memVersioner_delete]
    simp only [memMarkers]
    exact map_version_eraseP m.Version w.docs

/-! ## Helper lemmas: `Up` over a marker store -/

theorem read_of_store {σ : Type} (c : Client σ) (markers : σ → List Int)
    (hstore : MarkerStore c.Versioner markers) (w : σ) :
    c.Versioner.ReadVersion (Context.WithTimeout c.Timeout) w =
      (GoResult.ret (greatestVersion (markers w), none),
        (c.Versioner.ReadVersion (Context.WithTimeout c.Timeout) w).2) ∧
    markers (c.Versioner.ReadVersion (Context.WithTimeout c.Timeout) w).2 = markers w := by
  obtain ⟨h1, h2⟩ := hstore.read (Context.WithTimeout c.Timeout) w
  exact ⟨Prod.ext h1 rfl, h2⟩

theorem upLoop_all_ok {σ : Type} (c : Client σ) (migrations : migrationMap σ) (v : Int)
    (xs : List Int) (w : σ)
    (hok : ∀ ev ∈ (c.upLoop migrations v xs w).trace, ev.result = GoResult.ret none) :
    (c.upLoop migrations v xs w).out = GoResult.ret none ∧
    (c.upLoop migrations v xs w).trace.map Event.call =
      upCalls migrations (xs.filter (fun x => v < x)) := by
  rcases upLoop_shape c migrations v xs w with
    ⟨_, hout, htr⟩ | ⟨ys, x, zs, pre, ev, _, htr, _, hev, _, _⟩
  · exact ⟨hout, htr⟩
  · exact absurd (hok ev (by rw [htr]; simp)) hev

/-- When the migration functions leave the markers alone, a loop that returns
nil has added the eligible versions to the markers, in order. -/
theorem upLoop_markers {σ : Type} (c : Client σ) (migrations : migrationMap σ) (v : Int)
    (markers : σ → List Int) (hstore : MarkerStore c.Versioner markers)
    (hkey : KeyedByVersion migrations)
    (hframe : ∀ e ∈ migrations.entries, ∀ (db : Database) (w : σ),
      markers (e.2.Up db w).2 = markers w) :
    ∀ (xs : List Int) (w : σ), (∀ x ∈ xs, x ∈ migrations) →
      (c.upLoop migrations v xs w).out = GoResult.ret none →
      markers (c.upLoop migrations v xs w).world = markers w ++ xs.filter (fun x => v < x) := by
  intro xs
  induction xs with
  | nil =>
    intro w _ _
    simp [upLoop_nil]
  | cons version rest ih =>
    intro w hmem hout
    have hrestmem : ∀ x ∈ rest, x ∈ migrations :=
      fun x hx => hmem x (List.mem_cons_of_mem version hx)
    by_cases h : version ≤ v
    · have hfil : (version :: rest).filter (fun x => v < x) = rest.filter (fun x => v < x) := by
        simp [List.filter_cons, not_lt.mpr h]
      rw [upLoop_skip c migrations v version rest w h] at hout ⊢
      rw [hfil]
      exact ih w hrestmem hout
    · have hfil : (version :: rest).filter (fun x => v < x) =
          version :: rest.filter (fun x => v < x) := by
        simp [List.filter_cons, not_le.mp h]
      obtain ⟨w1, w2, hf, hw, hrest, hworld⟩ := upLoop_ok_inv c migrations v version rest w h hout
      have hin : version ∈ migrations := hmem version (List.mem_cons_self version rest)
      have h1 : markers w1 = markers w := by
        have := hframe _ (index_mem_entries migrations version hin) c.db w
        rw [hf] at this
        exact this
      have h2 : markers w2 = markers w1 ++ [version] := by
        have := hstore.write (Context.WithTimeout c.Timeout) (migrations.index version) w1
          (by rw [hw])
        rw [hw, index_version_of_keyed migrations hkey version hin] at this
        exact this
      rw [hworld, ih w2 hrestmem hrest, h2, h1, hfil]
      simp

/-! ## `Up` over a marker store -/

/-- C9 (amended): over a marker store, for a registry whose entries are filed
under their own version, when a call of `Up` returns nil, an `Up` that follows
it makes no call at all, so it invokes no forward function. -/
theorem Up_twice {σ : Type} (c : Client σ) (migrations : migrationMap σ)
    (markers : σ → List Int) (w : σ)
    (hstore : MarkerStore c.Versioner markers) (hkey : KeyedByVersion migrations)
    (hfirst : (c.Up migrations w).out = GoResult.ret none) :
    (c.Up migrations (c.Up migrations w).world).trace = [] ∧
    (∀ ev ∈ (c.Up migrations (c.Up migrations w).world).trace, ev.call.isForward = false) := by
  obtain ⟨hread, hm1⟩ := read_of_store c markers hstore w
  have hup := Up_of_read c migrations w _ _ hread
  obtain ⟨hread2, hm2⟩ := read_of_store c markers hstore (c.Up migrations w).world
  have hup2 := Up_of_read c migrations (c.Up migrations w).world _ _ hread2
  have hall : ∀ x ∈ (migrations.Versions false).1,
      x ≤ greatestVersion (markers (c.Up migrations w).world) := by
    rw [hup] at hfirst
    rcases List.eq_nil_or_concat
      ((migrations.Versions false).1.filter (fun x => greatestVersion (markers w) < x)) with
      hnil | ⟨ys, x0, hsplit⟩
    · have hle : ∀ x ∈ (migrations.Versions false).1, x ≤ greatestVersion (markers w) := by
        intro x hx
        have := List.filter_eq_nil_iff.mp hnil x hx
        simpa using this
      have hw : (c.Up migrations w).world =
          (c.Versioner.ReadVersion (Context.WithTimeout c.Timeout) w).2 := by
        rw [hup, upLoop_skip_all c migrations _ _ _ hle]
      rw [hw, hm1]
      exact hle
    · rw [List.concat_eq_append] at hsplit
      obtain ⟨w0, hw0⟩ := upLoop_last_write c migrations _ _ _ ys x0 hfirst hsplit
      have hx0 : x0 ∈ (migrations.Versions false).1.filter
          (fun x => greatestVersion (markers w) < x) := by
        rw [hsplit]; simp
      have hx0m := (mem_eligible_up migrations _ x0).mp hx0
      have hmark := hstore.write (Context.WithTimeout c.Timeout) (migrations.index x0) w0
        (by rw [hw0])
      rw [hw0, index_version_of_keyed migrations hkey x0 hx0m.1] at hmark
      have hx0le : x0 ≤ greatestVersion (markers (c.Up migrations w).world) := by
        apply greatestVersion_ge
        rw [hup]
        simp only at hmark
        rw [hmark]
        simp
      intro x hx
      by_cases hxv : x ≤ greatestVersion (markers w)
      · exact le_trans hxv (le_trans (le_of_lt hx0m.2) hx0le)
      · have hxe : x ∈ ys ++ [x0] := by
          rw [← hsplit]
          exact (mem_eligible_up migrations _ x).mpr
            ⟨(mem_Versions_asc migrations x).mp hx, not_le.mp hxv⟩
        have hs := eligible_up_sorted migrations (greatestVersion (markers w))
        rw [hsplit] at hs
        have hp := List.pairwise_append.mp hs
        rcases List.mem_append.mp hxe with hy | hy
        · exact le_trans (le_of_lt (hp.2.2 x hy x0 (List.mem_singleton_self x0))) hx0le
        · rw [List.mem_singleton.mp hy]; exact hx0le
  have htr : (c.Up migrations (c.Up migrations w).world).trace = [] := by
    rw [hup2, upLoop_skip_all c migrations _ _ _ hall]
  refine ⟨htr, ?_⟩
  rw [htr]
  intro ev hev
  simp at hev

theorem Up_twice_witness :
    MarkerStore memClient.Versioner memMarkers ∧
    KeyedByVersion registry12 ∧
    (memClient.Up registry12 emptyStore).out = GoResult.ret none ∧
    (memClient.Up registry12 (memClient.Up registry12 emptyStore).world).trace = [] :=
  ⟨memVersioner_markerStore, by unfold KeyedByVersion; decide, by decide,
    (Up_twice memClient registry12 memMarkers emptyStore memVersioner_markerStore
      (by unfold KeyedByVersion; decide) (by decide)).1⟩

/-- C9 as stated fails: over the in-memory marker store, with the registry of
`TestUp_ErrMigrationUp` (version 1, forward function failing), the first `Up`
returns the error without persisting anything, and the `Up` that follows
invokes the forward function of version 1 again. -/
theorem Up_twice_counterexample :
    MarkerStore memClient.Versioner memMarkers ∧
    (memClient.Up registryFail1 emptyStore).out =
      GoResult.ret (some Err.ErrClientDisconnected) ∧
    (memClient.Up registryFail1 (memClient.Up registryFail1 emptyStore).world).trace.map
      (fun ev => ev.call.isForward) = [true] ∧
    (memClient.Up registryFail1 (memClient.Up registryFail1 emptyStore).world).trace.map
      Event.call = [Call.forward (registryFail1.index 1)] := by
  refine ⟨memVersioner_markerStore, by decide, by decide, rfl⟩

/-- C10 (amended): over a marker store whose current version is `v`, for a non-empty
registry whose entries are filed under their own version and whose forward
functions leave the markers alone, when every call `Up` makes returns nil, `Up`
returns nil after calling, for each registered version above `v` in ascending
order, its forward function and then `WriteVersion`; the store then holds its
previous markers followed by one new marker for each registered version above
`v`, and `Version()` returns the maximum of `v` and the greatest registered
version. -/
theorem Up_persists {σ : Type} (c : Client σ) (migrations : migrationMap σ)
    (markers : σ → List Int) (w : σ) (v : Int)
    (hstore : MarkerStore c.Versioner markers) (hkey : KeyedByVersion migrations)
    (hframe : ∀ e ∈ migrations.entries, ∀ (db : Database) (w : σ),
      markers (e.2.Up db w).2 = markers w)
    (hne : migrations.keys ≠ [])
    (hv : (c.Version w).1 = GoResult.ret (v, none))
    (hok : ∀ ev ∈ (c.Up migrations w).trace, ev.result = GoResult.ret none) :
    (c.Up migrations w).out = GoResult.ret none ∧
    (c.Up migrations w).trace.map Event.call =
      upCalls migrations ((migrations.Versions false).1.filter (fun x => v < x)) ∧
    markers (c.Up migrations w).world =
      markers w ++ (migrations.Versions false).1.filter (fun x => v < x) ∧
    ∃ g : Int, g ∈ migrations ∧ (∀ x : Int, x ∈ migrations → x ≤ g) ∧
      (c.Version (c.Up migrations w).world).1 = GoResult.ret (max v g, none) := by
  obtain ⟨hread, hm1⟩ := read_of_store c markers hstore w
  have hvg : v = greatestVersion (markers w) := by
    have h1 : (c.Version w).1 = GoResult.ret (greatestVersion (markers w), none) := by
      simp only [Client.Version]
      rw [hread]
    rw [hv] at h1
    simp only [GoResult.ret.injEq, Prod.mk.injEq, and_true] at h1
    exact h1
  rw [← hvg] at hread
  have hup := Up_of_read c migrations w _ v hread
  rw [hup] at hok
  obtain ⟨hout, hcalls⟩ := upLoop_all_ok c migrations v _ _ hok
  have hmark : markers (c.Up migrations w).world =
      markers w ++ (migrations.Versions false).1.filter (fun x => v < x) := by
    rw [hup, upLoop_markers c migrations v markers hstore hkey hframe _ _
      (fun x hx => (mem_Versions_asc migrations x).mp hx) hout, hm1]
  have hkeys : migrations.keys ≠ [] := hne
  have hgmem : greatestVersion migrations.keys ∈ migrations :=
    AList.mem_keys.mpr (greatestVersion_mem _ hkeys)
  have hgmax : ∀ x : Int, x ∈ migrations → x ≤ greatestVersion migrations.keys :=
    fun x hx => greatestVersion_ge _ x (AList.mem_keys.mp hx)
  refine ⟨by rw [hup]; exact hout, by rw [hup]; exact hcalls, hmark,
    greatestVersion migrations.keys, hgmem, hgmax, ?_⟩
  obtain ⟨hread2, _⟩ := read_of_store c markers hstore (c.Up migrations w).world
  have hres : (c.Version (c.Up migrations w).world).1 =
      GoResult.ret (greatestVersion (markers (c.Up migrations w).world), none) := by
    simp only [Client.Version]
    rw [hread2]
  rw [hres, hmark]
  have hval : greatestVersion
      (markers w ++ (migrations.Versions false).1.filter (fun x => v < x)) =
      max v (greatestVersion migrations.keys) := by
    rcases hel : (migrations.Versions false).1.filter (fun x => v < x) with _ | ⟨x0, el⟩
    · have hgle : greatestVersion migrations.keys ≤ v := by
        have hin := (mem_Versions_asc migrations _).mpr hgmem
        have := List.filter_eq_nil_iff.mp hel _ hin
        simpa using this
      rw [List.append_nil, max_eq_left hgle, hvg]
    · have hx0 : x0 ∈ (migrations.Versions false).1.filter (fun x => v < x) := by
        rw [hel]; simp
      have hx0m := (mem_eligible_up migrations v x0).mp hx0
      have hvg2 : v < greatestVersion migrations.keys := lt_of_lt_of_le hx0m.2 (hgmax x0 hx0m.1)
      have hgel : greatestVersion migrations.keys ∈ x0 :: el := by
        rw [← hel]
        exact (mem_eligible_up migrations v _).mpr ⟨hgmem, hvg2⟩
      rw [max_eq_right (le_of_lt hvg2)]
      apply le_antisymm
      · have hmemM := greatestVersion_mem (markers w ++ x0 :: el) (by simp)
        generalize greatestVersion (markers w ++ x0 :: el) = M at hmemM ⊢
        rcases List.mem_append.mp hmemM with hM | hM
        · have := greatestVersion_ge (markers w) _ hM
          rw [← hvg] at this
          exact le_trans this (le_of_lt hvg2)
        · rw [← hel] at hM
          exact hgmax _ ((mem_eligible_up migrations v _).mp hM).1
      · exact greatestVersion_ge _ _ (List.mem_append_right _ hgel)
  rw [hval]

theorem registry12_frame : ∀ e ∈ registry12.entries, ∀ (db : Database) (w : MemStore),
    memMarkers (e.2.Up db w).2 = memMarkers w := by
  intro e he db w
  have hh : e ∈ [(⟨2, ⟨0, 2, okFunc, okFunc⟩⟩ : Sigma (fun _ : Int => Migration MemStore)),
      ⟨1, ⟨0, 1, okFunc, okFunc⟩⟩] := he
  simp only [List.mem_cons, List.mem_singleton, List.not_mem_nil, or_false] at hh
  rcases hh with rfl | rfl <;> rfl

theorem Up_persists_witness :
    MarkerStore memClient.Versioner memMarkers ∧
    KeyedByVersion registry12 ∧
    registry12.keys ≠ [] ∧
    (memClient.Version emptyStore).1 = GoResult.ret (0, none) ∧
    (∀ ev ∈ (memClient.Up registry12 emptyStore).trace, ev.result = GoResult.ret none) ∧
    (memClient.Up registry12 emptyStore).out = GoResult.ret none ∧
    (memClient.Up registry12 emptyStore).trace.map Event.call =
      [Call.forward (registry12.index 1), Call.write (registry12.index 1),
        Call.forward (registry12.index 2), Call.write (registry12.index 2)] ∧
    memMarkers (memClient.Up registry12 emptyStore).world =
      memMarkers emptyStore ++ (registry12.Versions false).1.filter (fun x => 0 < x) ∧
    memMarkers (memClient.Up registry12 emptyStore).world = [1, 2] ∧
    (memClient.Version (memClient.Up registry12 emptyStore).world).1 = GoResult.ret (2, none) :=
  ⟨memVersioner_markerStore, by unfold KeyedByVersion; decide, by decide, by decide, by decide,
    (Up_persists memClient registry12 memMarkers emptyStore 0 memVersioner_markerStore
      (by unfold KeyedByVersion; decide) registry12_frame
      (by decide) (by decide) (by decide)).1,
    rfl,
    (Up_persists memClient registry12 memMarkers emptyStore 0 memVersioner_markerStore
      (by unfold KeyedByVersion; decide) registry12_frame
      (by decide) (by decide) (by decide)).2.2.1,
    by decide, by decide⟩

/-! ## The registry: `Unregister`, mirrored listings, the key invariant -/

/-- C13: `Unregister(v)` (which has no error to return) leaves the registry
unchanged when `v` is absent; in every case `v` is absent afterwards and every
other version keeps its entry; applying it twice gives the same registry as
applying it once; and after it `Register(v, up, down)` returns nil and files the
new migration under `v`. -/
theorem Unregister_spec {σ : Type} (migrations : migrationMap σ) (v : Int) :
    (v ∉ migrations → Unregister migrations v = migrations) ∧
    (Unregister migrations v).lookup v = none ∧
    (∀ k : Int, k ≠ v → (Unregister migrations v).lookup k = migrations.lookup k) ∧
    Unregister (Unregister migrations v) v = Unregister migrations v ∧
    (∀ up down : Func σ,
      (Register (Unregister migrations v) v up down).1 = none ∧
      (Register (Unregister migrations v) v up down).2.lookup v =
        some { ID := 0, Version := v, Up := up, Down := down }) := by
  have habs : ∀ m : migrationMap σ, m.lookup v = none → Unregister m v = m := by
    intro m hm
    simp [Unregister, hm]
  have hpres : ∀ m : migrationMap σ, v ∈ m → Unregister m v = m.erase v := by
    intro m hm
    obtain ⟨b, hb⟩ := Option.isSome_iff_exists.mp (AList.lookup_isSome.mpr hm)
    simp [Unregister, hb]
  have hnone : (Unregister migrations v).lookup v = none := by
    by_cases h : v ∈ migrations
    · rw [hpres migrations h]; exact AList.lookup_erase v migrations
    · rw [habs migrations (AList.lookup_eq_none.mpr h)]; exact AList.lookup_eq_none.mpr h
  refine ⟨fun h => habs migrations (AList.lookup_eq_none.mpr h), hnone, ?_,
    habs _ hnone, ?_⟩
  · intro k hk
    by_cases h : v ∈ migrations
    · rw [hpres migrations h]; exact AList.lookup_erase_ne hk
    · rw [habs migrations (AList.lookup_eq_none.mpr h)]
  · intro up down
    have h1 : Register (Unregister migrations v) v up down =
        (none, (Unregister migrations v).insert v
          { ID := 0, Version := v, Up := up, Down := down }) := by
      simp [Register, hnone]
    rw [h1]
    exact ⟨rfl, AList.lookup_insert _⟩

theorem Unregister_spec_witness :
    (3 : Int) ∉ registry12 ∧ Unregister registry12 3 = registry12 ∧
    (Unregister registry12 1).lookup 1 = none :=
  ⟨by decide, (Unregister_spec registry12 3).1 (by decide), (Unregister_spec registry12 1).2.1⟩

theorem sortInts_eq_reverse (keys : List Int) :
    sortInts keys = (sortIntsReverse keys).reverse := by
  apply List.eq_of_perm_of_sorted (r := fun a b : Int => a ≤ b)
  · exact (sortInts_perm keys).trans
      ((sortIntsReverse_perm keys).symm.trans (List.reverse_perm _).symm)
  · exact sortInts_sorted keys
  · exact List.pairwise_reverse.mpr (sortIntsReverse_sorted keys)

/-- C14: `Versions(false)` is the reversal of `Versions(true)` and `Versions(true)`
is the reversal of `Versions(false)`, for every registry (the empty one
included). -/
theorem Versions_mirror {σ : Type} (m : migrationMap σ) :
    (m.Versions false).1 = (m.Versions true).1.reverse ∧
    (m.Versions true).1 = (m.Versions false).1.reverse := by
  rw [Versions_asc_eq, Versions_desc_eq]
  have h := sortInts_eq_reverse m.keys
  exact ⟨h, by rw [h, List.reverse_reverse]⟩

/-! ## Helper lemmas: the calls of `Up` and `Down`, whatever they return -/

theorem upCalls_split {σ : Type} (m : migrationMap σ) (ys zs : List Int) (x : Int) :
    upCalls m (ys ++ x :: zs) =
      upCalls m ys ++ [Call.forward (m.index x), Call.write (m.index x)] ++ upCalls m zs := by
  simp [upCalls, List.flatMap_append, List.flatMap_cons]

theorem upLoop_calls_initial {σ : Type} (c : Client σ) (migrations : migrationMap σ) (v : Int)
    (xs : List Int) (w : σ) :
    ∃ rest : List (Call σ), (c.upLoop migrations v xs w).trace.map Event.call ++ rest =
      upCalls migrations (xs.filter (fun x => v < x)) := by
  rcases upLoop_shape c migrations v xs w with
    ⟨_, _, htr⟩ | ⟨ys, x, zs, pre0, ev0, hsplit, htr, _, _, _, hcase⟩
  · exact ⟨[], by rw [htr]; simp⟩
  · rw [htr, hsplit, upCalls_split]
    rcases hcase with ⟨hc, hm⟩ | ⟨hc, hm⟩
    · exact ⟨Call.write (migrations.index x) :: upCalls migrations zs, by simp [hc, hm]⟩
    · exact ⟨upCalls migrations zs, by simp [hc, hm]⟩

theorem downLoop_calls_initial {σ : Type} (c : Client σ) (migrations : migrationMap σ) (v : Int)
    (xs : List Int) (w : σ) :
    ∃ rest : List (Call σ), (c.downLoop migrations v xs w).trace.map Event.call ++ rest =
      downCalls migrations (xs.filter (fun x => x ≤ v)) := by
  rcases downLoop_shape c migrations v xs w with
    ⟨_, _, htr⟩ | ⟨ys, x, zs, pre0, ev0, hsplit, htr, _, _, _, hcase⟩
  · exact ⟨[], by rw [htr]; simp⟩
  · rw [htr, hsplit, downCalls_split]
    rcases hcase with ⟨hc, hm⟩ | ⟨hc, hm⟩
    · exact ⟨Call.delete (migrations.index x) :: downCalls migrations zs, by simp [hc, hm]⟩
    · exact ⟨downCalls migrations zs, by simp [hc, hm]⟩

/-- However the version read ends, `Up` either makes no call or runs its loop
from the version that was read. -/
theorem Up_cases {σ : Type} (c : Client σ) (migrations : migrationMap σ) (w : σ) :
    ((c.Up migrations w).trace = [] ∧
      (c.Up migrations w).world =
        (c.Versioner.ReadVersion (Context.WithTimeout c.Timeout) w).2 ∧
      ∀ v : Int, (c.Versioner.ReadVersion (Context.WithTimeout c.Timeout) w).1 ≠
        GoResult.ret (v, none)) ∨
    ∃ (v : Int) (w1 : σ),
      c.Versioner.ReadVersion (Context.WithTimeout c.Timeout) w = (GoResult.ret (v, none), w1) ∧
      c.Up migrations w = c.upLoop migrations v (migrations.Versions false).1 w1 := by
  rcases hr : c.Versioner.ReadVersion (Context.WithTimeout c.Timeout) w with ⟨res, w1⟩
  rcases res with ⟨v, _ | e⟩ | _
  · right
    exact ⟨v, w1, rfl, Up_of_read c migrations w w1 v hr⟩
  · left
    simp [Client.Up, Client.Version, hr]
  · left
    simp [Client.Up, Client.Version, hr]

theorem Down_cases {σ : Type} (c : Client σ) (migrations : migrationMap σ) (w : σ) :
    ((c.Down migrations w).trace = [] ∧
      (c.Down migrations w).world =
        (c.Versioner.ReadVersion (Context.WithTimeout c.Timeout) w).2 ∧
      ∀ v : Int, (c.Versioner.ReadVersion (Context.WithTimeout c.Timeout) w).1 ≠
        GoResult.ret (v, none)) ∨
    ∃ (v : Int) (w1 : σ),
      c.Versioner.ReadVersion (Context.WithTimeout c.Timeout) w = (GoResult.ret (v, none), w1) ∧
      c.Down migrations w = c.downLoop migrations v (migrations.Versions false).1 w1 := by
  rcases hr : c.Versioner.ReadVersion (Context.WithTimeout c.Timeout) w with ⟨res, w1⟩
  rcases res with ⟨v, _ | e⟩ | _
  · right
    exact ⟨v, w1, rfl, Down_of_read c migrations w w1 v hr⟩
  · left
    simp [Client.Down, Client.Version, hr]
  · left
    simp [Client.Down, Client.Version, hr]

theorem Up_calls_mem {σ : Type} (c : Client σ) (migrations : migrationMap σ) (w : σ) :
    ∀ call ∈ (c.Up migrations w).trace.map Event.call, ∃ x : Int, x ∈ migrations ∧
      (call = Call.forward (migrations.index x) ∨ call = Call.write (migrations.index x)) := by
  intro call hcall
  rcases Up_cases c migrations w with ⟨htr, _, _⟩ | ⟨v, w1, _, hup⟩
  · rw [htr] at hcall; simp at hcall
  · rw [hup] at hcall
    obtain ⟨rest, hrest⟩ := upLoop_calls_initial c migrations v (migrations.Versions false).1 w1
    have hmem : call ∈ upCalls migrations
        ((migrations.Versions false).1.filter (fun x => v < x)) := by
      rw [← hrest]; exact List.mem_append_left _ hcall
    simp only [upCalls, List.mem_flatMap, List.mem_cons, List.mem_singleton] at hmem
    obtain ⟨x, hx, hc⟩ := hmem
    refine ⟨x, ((mem_eligible_up migrations v x).mp hx).1, ?_⟩
    rcases hc with hc | hc | hc
    · exact Or.inl hc
    · exact Or.inr hc
    · simp at hc

theorem Down_calls_mem {σ : Type} (c : Client σ) (migrations : migrationMap σ) (w : σ) :
    ∀ call ∈ (c.Down migrations w).trace.map Event.call, ∃ x : Int, x ∈ migrations ∧
      (call = Call.backward (migrations.index x) ∨ call = Call.delete (migrations.index x)) := by
  intro call hcall
  rcases Down_cases c migrations w with ⟨htr, _, _⟩ | ⟨v, w1, _, hup⟩
  · rw [htr] at hcall; simp at hcall
  · rw [hup] at hcall
    obtain ⟨rest, hrest⟩ := downLoop_calls_initial c migrations v (migrations.Versions false).1 w1
    have hmem : call ∈ downCalls migrations
        ((migrations.Versions false).1.filter (fun x => x ≤ v)) := by
      rw [← hrest]; exact List.mem_append_left _ hcall
    simp only [downCalls, List.mem_flatMap, List.mem_cons, List.mem_singleton] at hmem
    obtain ⟨x, hx, hc⟩ := hmem
    refine ⟨x, ((mem_eligible_down migrations v x).mp hx).1, ?_⟩
    rcases hc with hc | hc | hc
    · exact Or.inl hc
    · exact Or.inr hc
    · simp at hc

/-! ## Helper lemmas: registry calls keep entries filed under their version -/

theorem keyed_empty {σ : Type} : KeyedByVersion (∅ : migrationMap σ) := by
  intro e he
  simp at he

theorem keyed_Register {σ : Type} (m : migrationMap σ) (v : Int) (up down : Func σ)
    (h : KeyedByVersion m) : KeyedByVersion (Register m v up down).2 := by
  rcases hl : m.lookup v with _ | b
  · simp only [Register, hl]
    intro e he
    rw [AList.insert_entries] at he
    rcases List.mem_cons.mp he with rfl | he
    · rfl
    · exact h e ((List.kerase_sublist v m.entries).subset he)
  · simp only [Register, hl]
    exact h

theorem keyed_Unregister {σ : Type} (m : migrationMap σ) (v : Int)
    (h : KeyedByVersion m) : KeyedByVersion (Unregister m v) := by
  rcases hl : m.lookup v with _ | b
  · simp only [Unregister, hl]
    exact h
  · simp only [Unregister, hl]
    intro e he
    exact h e ((List.kerase_sublist v m.entries).subset he)

theorem keyed_apply {σ : Type} (m : migrationMap σ) (op : RegistryOp σ)
    (h : KeyedByVersion m) : KeyedByVersion (RegistryOp.apply m op) := by
  cases op with
  | register v up down => exact keyed_Register m v up down h
  | unregister v => exact keyed_Unregister m v h

theorem keyed_applyRegistryOps {σ : Type} (ops : List (RegistryOp σ)) :
    ∀ m : migrationMap σ, KeyedByVersion m → KeyedByVersion (applyRegistryOps m ops) := by
  induction ops with
  | nil => intro m h; exact h
  | cons op rest ih =>
    intro m h
    exact ih (RegistryOp.apply m op) (keyed_apply m op h)

/-- C19: starting from the empty registry, after any sequence of `Register` and
`Unregister` calls every entry is filed under its own `Version`
(`migrations[k].Version = k` for every registered `k`); so every call `Up`
makes is the forward function or the `WriteVersion` of the entry of a
registered version `x` whose `Version` is `x`, and every call `Down` makes is the
backward function or the `DeleteVersion` of such an entry. -/
theorem registry_keyed_by_version {σ : Type} (ops : List (RegistryOp σ)) :
    KeyedByVersion (applyRegistryOps (∅ : migrationMap σ) ops) ∧
    (∀ (k : Int) (mig : Migration σ),
      (applyRegistryOps (∅ : migrationMap σ) ops).lookup k = some mig → mig.Version = k) ∧
    (∀ k : Int, k ∈ applyRegistryOps (∅ : migrationMap σ) ops →
      ((applyRegistryOps (∅ : migrationMap σ) ops).index k).Version = k) ∧
    (∀ (c : Client σ) (w : σ),
      ∀ call ∈ (c.Up (applyRegistryOps ∅ ops) w).trace.map Event.call,
        ∃ x : Int, x ∈ applyRegistryOps (∅ : migrationMap σ) ops ∧
          ((applyRegistryOps (∅ : migrationMap σ) ops).index x).Version = x ∧
          (call = Call.forward ((applyRegistryOps ∅ ops).index x) ∨
            call = Call.write ((applyRegistryOps ∅ ops).index x))) ∧
    (∀ (c : Client σ) (w : σ),
      ∀ call ∈ (c.Down (applyRegistryOps ∅ ops) w).trace.map Event.call,
        ∃ x : Int, x ∈ applyRegistryOps (∅ : migrationMap σ) ops ∧
          ((applyRegistryOps (∅ : migrationMap σ) ops).index x).Version = x ∧
          (call = Call.backward ((applyRegistryOps ∅ ops).index x) ∨
            call = Call.delete ((applyRegistryOps ∅ ops).index x))) := by
  have hk := keyed_applyRegistryOps ops (∅ : migrationMap σ) keyed_empty
  refine ⟨hk, ?_, fun k hkm => index_version_of_keyed _ hk k hkm, ?_, ?_⟩
  · intro k mig hl
    exact hk ⟨k, mig⟩ (AList.mem_lookup_iff.mp (by rw [hl]; exact rfl))
  · intro c w call hcall
    obtain ⟨x, hx, hc⟩ := Up_calls_mem c _ w call hcall
    exact ⟨x, hx, index_version_of_keyed _ hk x hx, hc⟩
  · intro c w call hcall
    obtain ⟨x, hx, hc⟩ := Down_calls_mem c _ w call hcall
    exact ⟨x, hx, index_version_of_keyed _ hk x hx, hc⟩

theorem registry_keyed_by_version_witness :
    registry12.lookup 2 = some (registry12.index 2) ∧ (registry12.index 2).Version = 2 :=
  ⟨rfl,
    (registry_keyed_by_version
      [RegistryOp.register 1 okFunc okFunc, RegistryOp.register 2 okFunc okFunc]).2.1 2
      (registry12.index 2) rfl⟩

/-! ## The version store: writes, deletes and `Version` pass results through -/

/-- C16: `version.WriteVersion` makes exactly one adapter call, the `InsertOne`
of the document `{version: migration.Version, timestamp: now}`, and
`version.DeleteVersion` makes exactly one adapter call, the `DeleteOne` with
filter `{version: migration.Version}`; each leaves the world the adapter call
left and returns exactly the error the adapter call returned (nil for nil, the
same `e` otherwise); and `Client.Version` returns exactly what
`Versioner.ReadVersion` returned. -/
theorem version_passthrough {σ : Type} (C : collectionManager σ) (timeNow : σ → Nat)
    (ctx : Context) (m : Migration (σ × List AdapterCall)) (w : σ) (log : List AdapterCall)
    (c : Client σ) :
    (version.WriteVersion { Collection := C.logged } (fun s => timeNow s.1) ctx m (w, log)).2 =
      ((C.InsertOne ctx
          [("version", BsonValue.int m.Version), ("timestamp", BsonValue.time (timeNow w))] w).2,
        log ++ [AdapterCall.insertOne ctx
          [("version", BsonValue.int m.Version), ("timestamp", BsonValue.time (timeNow w))]]) ∧
    (∀ (r : Option Nat) (err : Option Err) (w1 : σ),
      C.InsertOne ctx
          [("version", BsonValue.int m.Version), ("timestamp", BsonValue.time (timeNow w))] w =
        (GoResult.ret (r, err), w1) →
      (version.WriteVersion { Collection := C.logged } (fun s => timeNow s.1) ctx m (w, log)).1 =
        GoResult.ret err) ∧
    (version.DeleteVersion { Collection := C.logged } ctx m (w, log)).2 =
      ((C.DeleteOne ctx [("version", BsonValue.int m.Version)] w).2,
        log ++ [AdapterCall.deleteOne ctx [("version", BsonValue.int m.Version)]]) ∧
    (∀ (r : Option Int) (err : Option Err) (w1 : σ),
      C.DeleteOne ctx [("version", BsonValue.int m.Version)] w = (GoResult.ret (r, err), w1) →
      (version.DeleteVersion { Collection := C.logged } ctx m (w, log)).1 = GoResult.ret err) ∧
    c.Version w = c.Versioner.ReadVersion (Context.WithTimeout c.Timeout) w := by
  refine ⟨?_, ?_, ?_, ?_, rfl⟩
  · rcases h : C.InsertOne ctx
      [("version", BsonValue.int m.Version), ("timestamp", BsonValue.time (timeNow w))] w with
      ⟨res, w1⟩
    rcases res with ⟨r, err⟩ | _ <;>
      simp [version.WriteVersion, collectionManager.logged, h]
  · intro r err w1 h
    simp [version.WriteVersion, collectionManager.logged, h]
  · rcases h : C.DeleteOne ctx [("version", BsonValue.int m.Version)] w with ⟨res, w1⟩
    rcases res with ⟨r, err⟩ | _ <;>
      simp [version.DeleteVersion, collectionManager.logged, h]
  · intro r err w1 h
    simp [version.DeleteVersion, collectionManager.logged, h]

theorem version_passthrough_witness :
    disconnectedCollection.InsertOne (Context.WithTimeout 2000000000)
        [("version", BsonValue.int 2), ("timestamp", BsonValue.time 0)] emptyStore =
      (GoResult.ret (none, some Err.ErrClientDisconnected), emptyStore) ∧
    (version.WriteVersion { Collection := disconnectedCollection.logged } (fun s => s.1.clock)
        (Context.WithTimeout 2000000000) (registry12.index 2).persisted (emptyStore, [])).1 =
      GoResult.ret (some Err.ErrClientDisconnected) :=
  ⟨rfl,
    (version_passthrough disconnectedCollection (fun w => w.clock)
      (Context.WithTimeout 2000000000) (registry12.index 2).persisted emptyStore []
      memClient).2.1 none (some Err.ErrClientDisconnected) emptyStore rfl⟩

/-! ## The client constructor -/

/-- C15 on the code: `New` takes the schema to be `"migrations"` when `Schema` is
empty and the timeout string to be `"2s"` when `Timeout` is empty.  When that
timeout string does not parse it returns no client and the parse error.  When
it parses and `Database` is set, it returns a client with that schema, the
parsed timeout, the database handle and the version store on the collection
named by the schema.  When it parses and `Database` is nil, `New` returns
neither a client nor an error: it panics in `database.Collection`.  So
`New(Options{})`, with `"2s"` parsing, panics. -/
theorem New_spec {σ : Type} (parseDuration : String → Int × Option Err)
    (driver : String → String → collectionManager σ) (timeNow : σ → Nat) (opt : Options) :
    (∀ e : Err,
      (parseDuration (if opt.Timeout = "" then "2s" else opt.Timeout)).2 = some e →
      New parseDuration driver timeNow opt = GoResult.ret (none, some e)) ∧
    (∀ name : String, opt.Database = some name →
      (parseDuration (if opt.Timeout = "" then "2s" else opt.Timeout)).2 = none →
      New parseDuration driver timeNow opt =
        GoResult.ret
          (some
            { Versioner := version.toVersioner
                { Collection := driver name
                    (if opt.Schema = "" then "migrations" else opt.Schema) } timeNow
              Schema := if opt.Schema = "" then "migrations" else opt.Schema
              Timeout := (parseDuration (if opt.Timeout = "" then "2s" else opt.Timeout)).1
              db := some name },
            none)) ∧
    (opt.Database = none →
      (parseDuration (if opt.Timeout = "" then "2s" else opt.Timeout)).2 = none →
      New parseDuration driver timeNow opt = GoResult.panic) ∧
    (opt = { Schema := "", Timeout := "", Database := none } →
      (parseDuration "2s").2 = none →
      New parseDuration driver timeNow opt = GoResult.panic) ∧
    (∀ name : String, opt = { Schema := "", Timeout := "", Database := some name } →
      parseDuration "2s" = (2000000000, none) →
      ∃ cl : Client σ, New parseDuration driver timeNow opt = GoResult.ret (some cl, none) ∧
        cl.Schema = "migrations" ∧ cl.Timeout = 2000000000) ∧
    (opt.Timeout = "invalid" → ∀ e : Err, (parseDuration "invalid").2 = some e →
      New parseDuration driver timeNow opt = GoResult.ret (none, some e)) := by
  have hfail : ∀ e : Err,
      (parseDuration (if opt.Timeout = "" then "2s" else opt.Timeout)).2 = some e →
      New parseDuration driver timeNow opt = GoResult.ret (none, some e) := by
    intro e he
    rcases hp : parseDuration (if opt.Timeout = "" then "2s" else opt.Timeout) with ⟨d, err⟩
    rw [hp] at he
    simp only at he
    subst he
    by_cases hs : opt.Schema = "" <;> by_cases ht : opt.Timeout = "" <;>
      simp [New, Options.defaultTag, hs, ht] at hp ⊢ <;> simp [hp]
  have hok : ∀ name : String, opt.Database = some name →
      (parseDuration (if opt.Timeout = "" then "2s" else opt.Timeout)).2 = none →
      New parseDuration driver timeNow opt =
        GoResult.ret
          (some
            { Versioner := version.toVersioner
                { Collection := driver name
                    (if opt.Schema = "" then "migrations" else opt.Schema) } timeNow
              Schema := if opt.Schema = "" then "migrations" else opt.Schema
              Timeout := (parseDuration (if opt.Timeout = "" then "2s" else opt.Timeout)).1
              db := some name },
            none) := by
    intro name hdb he
    rcases hp : parseDuration (if opt.Timeout = "" then "2s" else opt.Timeout) with ⟨d, err⟩
    rw [hp] at he
    simp only at he
    subst he
    by_cases hs : opt.Schema = "" <;> by_cases ht : opt.Timeout = "" <;>
      simp [New, Options.defaultTag, database.Collection, hs, ht, hdb] at hp ⊢ <;> simp [hp]
  have hpanic : opt.Database = none →
      (parseDuration (if opt.Timeout = "" then "2s" else opt.Timeout)).2 = none →
      New parseDuration driver timeNow opt = GoResult.panic := by
    intro hdb he
    rcases hp : parseDuration (if opt.Timeout = "" then "2s" else opt.Timeout) with ⟨d, err⟩
    rw [hp] at he
    simp only at he
    subst he
    by_cases hs : opt.Schema = "" <;> by_cases ht : opt.Timeout = "" <;>
      simp [New, Options.defaultTag, database.Collection, hs, ht, hdb] at hp ⊢ <;> simp [hp]
  refine ⟨hfail, hok, hpanic, ?_, ?_, ?_⟩
  · intro hopt h2
    subst hopt
    exact hpanic rfl (by simpa using h2)
  · intro name hopt h2
    subst hopt
    have hp : (parseDuration (if ("" : String) = "" then "2s" else "")).2 = none := by
      simp [h2]
    refine ⟨_, hok name rfl hp, ?_, ?_⟩
    · simp
    · simp [h2]
  · intro ht e he
    apply hfail e
    simpa [ht] using he

theorem New_spec_witness :
    (parseDurationExample "2s").2 = none ∧
    (New parseDurationExample (fun _ _ => memCollection) (fun w => w.clock)
      { Schema := "", Timeout := "", Database := none }) = GoResult.panic :=
  ⟨by decide,
    (New_spec parseDurationExample (fun _ _ => memCollection) (fun w => w.clock)
      { Schema := "", Timeout := "", Database := none }).2.2.2.1 rfl (by decide)⟩

/-! ## The registry mutex -/

/-- C17 on the code: every map step of `Register` happens between its `m.Lock()`
and its deferred `m.Unlock()`, but `Unregister` reads the map, and deletes from
it when the version is present, without ever taking the mutex. -/
theorem Unregister_not_guarded {σ : Type} (migrations : migrationMap σ) (v : Int) :
    guarded (RegisterSteps migrations v) = true ∧
    guarded (UnregisterSteps migrations v) = false ∧
    SyncStep.lock ∉ UnregisterSteps migrations v ∧
    SyncStep.mapRead v ∈ UnregisterSteps migrations v ∧
    (v ∈ migrations → SyncStep.mapDelete v ∈ UnregisterSteps migrations v) := by
  rcases hl : migrations.lookup v with _ | b
  · have hv : v ∉ migrations := AList.lookup_eq_none.mp hl
    simp [RegisterSteps, UnregisterSteps, hl, guarded, guardedFrom, hv]
  · simp [RegisterSteps, UnregisterSteps, hl, guarded, guardedFrom]

theorem Unregister_not_guarded_witness :
    (1 : Int) ∈ registry12 ∧ SyncStep.mapDelete 1 ∈ UnregisterSteps registry12 1 ∧
    guarded (UnregisterSteps registry12 1) = false :=
  ⟨by decide, (Unregister_not_guarded registry12 1).2.2.2.2 (by decide),
    (Unregister_not_guarded registry12 1).2.1⟩

/-! ## `Down` is not atomic -/

/-- C20: over the in-memory marker store, with registry {1, 2} whose backward
function of version 2 fails and a store holding the markers 1 and 2, `Down`
runs backward 1, deletes marker 1, runs backward 2 and returns its error; the
store is left with the marker 2 only, `Version()` still returns 2, and an `Up`
that follows makes no call at all (so no forward function) and returns nil:
version 1 stays reverted while the current version reads 2. -/
theorem Down_not_atomic :
    MarkerStore memClient.Versioner memMarkers ∧
    memMarkers store12 = [1, 2] ∧
    (memClient.Down registryDownFail2 store12).out =
      GoResult.ret (some Err.ErrClientDisconnected) ∧
    (memClient.Down registryDownFail2 store12).trace =
      [⟨Call.backward (registryDownFail2.index 1), GoResult.ret none⟩,
        ⟨Call.delete (registryDownFail2.index 1), GoResult.ret none⟩,
        ⟨Call.backward (registryDownFail2.index 2),
          GoResult.ret (some Err.ErrClientDisconnected)⟩] ∧
    memMarkers (memClient.Down registryDownFail2 store12).world = [2] ∧
    (memClient.Version (memClient.Down registryDownFail2 store12).world).1 =
      GoResult.ret (2, none) ∧
    (memClient.Up registryDownFail2 (memClient.Down registryDownFail2 store12).world).trace =
      [] ∧
    (memClient.Up registryDownFail2 (memClient.Down registryDownFail2 store12).world).out =
      GoResult.ret none :=
  ⟨memVersioner_markerStore, by decide, by decide, rfl, by decide, by decide, rfl, by decide⟩

/-! ## Helper lemmas: the markers after a run of the `Up` loop -/

theorem writtenVersions_append {σ : Type} (l1 l2 : List (Call σ)) :
    writtenVersions (l1 ++ l2) = writtenVersions l1 ++ writtenVersions l2 := by
  induction l1 with
  | nil => rfl
  | cons a t ih => cases a <;> simp [writtenVersions, ih]

theorem writtenVersions_upCalls {σ : Type} (m : migrationMap σ) (ys : List Int) :
    writtenVersions (upCalls m ys) = ys.map (fun y => (m.index y).Version) := by
  induction ys with
  | nil => rfl
  | cons y t ih =>
    have h : upCalls m (y :: t) =
        Call.forward (m.index y) :: Call.write (m.index y) :: upCalls m t := by
      simp [upCalls, List.flatMap_cons]
    rw [h]
    simp [writtenVersions, ih]

/-- When the forward functions leave the markers alone and no write of the run
failed, the loop has added to the markers the versions of its writes, in
order. -/
theorem upLoop_markers_of_calls {σ : Type} (c : Client σ) (migrations : migrationMap σ)
    (v : Int) (markers : σ → List Int) (hstore : MarkerStore c.Versioner markers)
    (hframe : ∀ e ∈ migrations.entries, ∀ (db : Database) (w : σ),
      markers (e.2.Up db w).2 = markers w) :
    ∀ (xs : List Int) (w : σ), (∀ x ∈ xs, x ∈ migrations) →
      (∀ ev ∈ (c.upLoop migrations v xs w).trace, ∀ mig : Migration σ,
        ev.call = Call.write mig → ev.result = GoResult.ret none) →
      markers (c.upLoop migrations v xs w).world =
        markers w ++ writtenVersions ((c.upLoop migrations v xs w).trace.map Event.call) := by
  intro xs
  induction xs with
  | nil =>
    intro w _ _
    simp [upLoop_nil, writtenVersions]
  | cons version rest ih =>
    intro w hmem hwr
    have hrestmem : ∀ x ∈ rest, x ∈ migrations :=
      fun x hx => hmem x (List.mem_cons_of_mem version hx)
    by_cases h : version ≤ v
    · rw [upLoop_skip c migrations v version rest w h] at hwr ⊢
      exact ih w hrestmem hwr
    · have hin : version ∈ migrations := hmem version (List.mem_cons_self version rest)
      rcases hf : (migrations.index version).Up c.db w with ⟨res, w1⟩
      have h1 : markers w1 = markers w := by
        have := hframe _ (index_mem_entries migrations version hin) c.db w
        rw [hf] at this
        exact this
      by_cases hres : res = GoResult.ret none
      · subst hres
        rcases hw : c.Versioner.WriteVersion (Context.WithTimeout c.Timeout)
          (migrations.index version) w1 with ⟨res2, w2⟩
        by_cases hres2 : res2 = GoResult.ret none
        · subst hres2
          have h2 : markers w2 = markers w1 ++ [(migrations.index version).Version] := by
            have := hstore.write (Context.WithTimeout c.Timeout) (migrations.index version) w1
              (by rw [hw])
            rw [hw] at this
            exact this
          rw [upLoop_step c migrations v version rest w w1 w2 h hf hw] at hwr ⊢
          have hwr2 : ∀ ev ∈ (c.upLoop migrations v rest w2).trace, ∀ mig : Migration σ,
              ev.call = Call.write mig → ev.result = GoResult.ret none :=
            fun ev hev => hwr ev (List.mem_cons_of_mem _ (List.mem_cons_of_mem _ hev))
          simp only [List.map_cons, writtenVersions]
          rw [ih w2 hrestmem hwr2, h2, h1]
          simp
        · rw [upLoop_write_fail c migrations v version rest w w1 w2 res2 h hf hw hres2] at hwr
          exact absurd (hwr ⟨Call.write (migrations.index version), res2⟩ (by simp)
            (migrations.index version) rfl) hres2
      · rw [upLoop_forward_fail c migrations v version rest w w1 res h hf hres]
        simp [writtenVersions, h1]

theorem map_index_version {σ : Type} (m : migrationMap σ) (hkey : KeyedByVersion m)
    (ys : List Int) (hys : ∀ y ∈ ys, y ∈ m) : ys.map (fun y => (m.index y).Version) = ys := by
  induction ys with
  | nil => rfl
  | cons y t ih =>
    rw [List.map_cons, index_version_of_keyed m hkey y (hys y (List.mem_cons_self y t)),
      ih (fun z hz => hys z (List.mem_cons_of_mem y hz))]

theorem greatestVersion_append_above (L ys : List Int)
    (hys : ∀ y ∈ ys, greatestVersion L < y) (hne : ys ≠ []) :
    greatestVersion (L ++ ys) ∈ ys ∧ ∀ z ∈ ys, z ≤ greatestVersion (L ++ ys) := by
  have hge : ∀ z ∈ ys, z ≤ greatestVersion (L ++ ys) :=
    fun z hz => greatestVersion_ge _ z (List.mem_append_right L hz)
  refine ⟨?_, hge⟩
  have hmem := greatestVersion_mem (L ++ ys) (by simp [hne])
  rcases List.mem_append.mp hmem with hM | hM
  · obtain ⟨z, hz⟩ := List.exists_mem_of_ne_nil ys hne
    have h1 := greatestVersion_ge L _ hM
    have h2 := hys z hz
    have h3 := hge z hz
    exact absurd (lt_of_lt_of_le h2 h3) (not_lt.mpr h1)
  · exact hM

/-! ## `Up` stopped by a forward function, over a marker store -/

/-- C11 (amended): over a marker store whose current version is `v`, for a registry whose
entries are filed under their own version and whose forward functions leave the
markers alone, when the forward function of the registered version `x` is
called by `Up` and returns the error `e`: `x` is above `v`, `Up` returns `e`,
the store holds its previous markers followed by the registered versions
strictly between `v` and `x`, and a `Version()` that follows returns the
greatest registered version `y` with `v < y < x`, or `v` when there is none;
in either case a version below `x`. -/
theorem Up_forward_failure {σ : Type} (c : Client σ) (migrations : migrationMap σ)
    (markers : σ → List Int) (w : σ) (v x : Int) (e : Err)
    (pre post : List (Event σ)) (ev : Event σ)
    (hstore : MarkerStore c.Versioner markers) (hkey : KeyedByVersion migrations)
    (hframe : ∀ e ∈ migrations.entries, ∀ (db : Database) (w : σ),
      markers (e.2.Up db w).2 = markers w)
    (hv : (c.Version w).1 = GoResult.ret (v, none))
    (hx : x ∈ migrations)
    (htrace : (c.Up migrations w).trace = pre ++ ev :: post)
    (hcall : ev.call = Call.forward (migrations.index x))
    (hev : ev.result = GoResult.ret (some e)) :
    (c.Up migrations w).out = GoResult.ret (some e) ∧
    v < x ∧
    markers (c.Up migrations w).world =
      markers w ++ ((migrations.Versions false).1.filter (fun y => v < y)).filter
        (fun y => y < x) ∧
    ∃ y : Int, (c.Version (c.Up migrations w).world).1 = GoResult.ret (y, none) ∧ y < x ∧
      ((y = v ∧ ∀ z : Int, z ∈ migrations → v < z → ¬ z < x) ∨
        (y ∈ migrations ∧ v < y ∧ ∀ z : Int, z ∈ migrations → v < z → z < x → z ≤ y)) := by
  obtain ⟨hread, hm1⟩ := read_of_store c markers hstore w
  have hvg : v = greatestVersion (markers w) := by
    have h1 : (c.Version w).1 = GoResult.ret (greatestVersion (markers w), none) := by
      simp only [Client.Version]
      rw [hread]
    rw [hv] at h1
    simp only [GoResult.ret.injEq, Prod.mk.injEq, and_true] at h1
    exact h1
  rw [← hvg] at hread
  have hup := Up_of_read c migrations w _ v hread
  have hbad : ¬ ev.result = GoResult.ret none := by rw [hev]; simp
  have hmemV : ∀ z ∈ (migrations.Versions false).1, z ∈ migrations :=
    fun z hz => (mem_Versions_asc migrations z).mp hz
  rw [hup] at htrace
  rcases upLoop_shape c migrations v (migrations.Versions false).1 _ with
    ⟨hall, _, _⟩ | ⟨ys, x2, zs, pre0, ev0, hsplit, htr, hpre0, _, hout, hcase⟩
  · exact absurd (hall ev (by rw [htrace]; simp)) hbad
  · rw [htr] at htrace
    obtain ⟨h1, h2, h3⟩ := split_at_failure (fun p : Event σ => p.result = GoResult.ret none)
      pre0 pre post ev0 ev htrace hpre0 hbad
    subst h1 h2 h3
    have hx2 : x2 ∈ (migrations.Versions false).1.filter (fun x => v < x) := by
      rw [hsplit]; simp
    have hx2m := (mem_eligible_up migrations v x2).mp hx2
    rcases hcase with ⟨hc, hm⟩ | ⟨hc, _⟩
    swap
    · rw [hcall] at hc
      cases hc
    have hxx : x2 = x := by
      rw [hcall] at hc
      have hi : migrations.index x = migrations.index x2 := Call.forward.inj hc
      rw [← index_version_of_keyed migrations hkey x2 hx2m.1,
        ← index_version_of_keyed migrations hkey x hx, hi]
    subst hxx
    have hys := filter_lt_of_sorted_split _ ys zs x2 (eligible_up_sorted migrations v) hsplit
    have hysmem : ∀ z : Int, z ∈ ys ↔ z ∈ migrations ∧ v < z ∧ z < x2 := by
      intro z
      rw [← hys, List.mem_filter, mem_eligible_up]
      simp [and_assoc]
    have hnowrite : ∀ ev2 ∈ (c.upLoop migrations v (migrations.Versions false).1
        (c.Versioner.ReadVersion (Context.WithTimeout c.Timeout) w).2).trace,
        ∀ mig : Migration σ, ev2.call = Call.write mig → ev2.result = GoResult.ret none := by
      intro ev2 hev2 mig hmig
      rw [htr] at hev2
      rcases List.mem_append.mp hev2 with hp | hp
      · exact hpre0 ev2 hp
      · rw [List.mem_singleton.mp hp, hcall] at hmig
        cases hmig
    have hmark : markers (c.Up migrations w).world = markers w ++ ys := by
      rw [hup, upLoop_markers_of_calls c migrations v markers hstore hframe _ _ hmemV hnowrite,
        htr, hm1]
      simp only [List.map_append, List.map_cons, List.map_nil, hm, hcall,
        writtenVersions_append, writtenVersions_upCalls, writtenVersions, List.append_nil]
      rw [map_index_version migrations hkey ys (fun y hy => ((hysmem y).mp hy).1)]
    refine ⟨by rw [hup, hout, hev], hx2m.2, by rw [hmark, hys], ?_⟩
    obtain ⟨hread2, _⟩ := read_of_store c markers hstore (c.Up migrations w).world
    have hres : (c.Version (c.Up migrations w).world).1 =
        GoResult.ret (greatestVersion (markers (c.Up migrations w).world), none) := by
      simp only [Client.Version]
      rw [hread2]
    rw [hres, hmark]
    by_cases hne : ys = []
    · refine ⟨v, by rw [hne, List.append_nil, ← hvg], hx2m.2, Or.inl ⟨rfl, ?_⟩⟩
      intro z hz hvz hzx
      have : z ∈ ys := (hysmem z).mpr ⟨hz, hvz, hzx⟩
      rw [hne] at this
      simp at this
    · have habove : ∀ y ∈ ys, greatestVersion (markers w) < y := by
        intro y hy
        rw [← hvg]
        exact ((hysmem y).mp hy).2.1
      obtain ⟨hM, hMax⟩ := greatestVersion_append_above (markers w) ys habove hne
      have hM2 := (hysmem _).mp hM
      refine ⟨_, rfl, hM2.2.2, Or.inr ⟨hM2.1, hM2.2.1, ?_⟩⟩
      intro z hz hvz hzx
      exact hMax z ((hysmem z).mpr ⟨hz, hvz, hzx⟩)

theorem registryFail2_frame : ∀ e ∈ registryFail2.entries, ∀ (db : Database) (w : MemStore),
    memMarkers (e.2.Up db w).2 = memMarkers w := by
  intro e he db w
  have hh : e ∈ [(⟨2, ⟨0, 2, failFunc, failFunc⟩⟩ : Sigma (fun _ : Int => Migration MemStore)),
      ⟨1, ⟨0, 1, okFunc, okFunc⟩⟩] := he
  simp only [List.mem_cons, List.mem_singleton, List.not_mem_nil, or_false] at hh
  rcases hh with rfl | rfl <;> rfl

theorem Up_forward_failure_witness :
    MarkerStore memClient.Versioner memMarkers ∧
    KeyedByVersion registryFail2 ∧
    (memClient.Version emptyStore).1 = GoResult.ret (0, none) ∧
    (2 : Int) ∈ registryFail2 ∧
    (memClient.Up registryFail2 emptyStore).trace =
      [⟨Call.forward (registryFail2.index 1), GoResult.ret none⟩,
        ⟨Call.write (registryFail2.index 1), GoResult.ret none⟩] ++
      ⟨Call.forward (registryFail2.index 2), GoResult.ret (some Err.ErrClientDisconnected)⟩ ::
        [] ∧
    (memClient.Up registryFail2 emptyStore).out =
      GoResult.ret (some Err.ErrClientDisconnected) ∧
    memMarkers (memClient.Up registryFail2 emptyStore).world = [1] ∧
    (memClient.Version (memClient.Up registryFail2 emptyStore).world).1 =
      GoResult.ret (1, none) :=
  ⟨memVersioner_markerStore, by unfold KeyedByVersion; decide, by decide, by decide, rfl,
    (Up_forward_failure memClient registryFail2 memMarkers emptyStore 0 2
      Err.ErrClientDisconnected
      [⟨Call.forward (registryFail2.index 1), GoResult.ret none⟩,
        ⟨Call.write (registryFail2.index 1), GoResult.ret none⟩] []
      ⟨Call.forward (registryFail2.index 2), GoResult.ret (some Err.ErrClientDisconnected)⟩
      memVersioner_markerStore (by unfold KeyedByVersion; decide) registryFail2_frame
      (by decide) (by decide) rfl rfl rfl).1,
    by decide, by decide⟩

/-! ## Helper lemmas: the markers after a run of the `Down` loop -/

theorem deletedVersions_downCalls {σ : Type} (m : migrationMap σ) (ys : List Int) :
    deletedVersions (downCalls m ys) = ys.map (fun y => (m.index y).Version) := by
  induction ys with
  | nil => rfl
  | cons y t ih =>
    have h : downCalls m (y :: t) =
        Call.backward (m.index y) :: Call.delete (m.index y) :: downCalls m t := by
      simp [downCalls, List.flatMap_cons]
    rw [h]
    simp [deletedVersions, ih]

/-- When the backward functions leave the markers alone and no delete of the run
failed, the loop has removed from the markers one record for each of its
deletes, in order. -/
theorem downLoop_markers_of_calls {σ : Type} (c : Client σ) (migrations : migrationMap σ)
    (v : Int) (markers : σ → List Int) (hstore : MarkerStore c.Versioner markers)
    (hframe : ∀ e ∈ migrations.entries, ∀ (db : Database) (w : σ),
      markers (e.2.Down db w).2 = markers w) :
    ∀ (xs : List Int) (w : σ), (∀ x ∈ xs, x ∈ migrations) →
      (∀ ev ∈ (c.downLoop migrations v xs w).trace, ∀ mig : Migration σ,
        ev.call = Call.delete mig → ev.result = GoResult.ret none) →
      markers (c.downLoop migrations v xs w).world =
        (deletedVersions ((c.downLoop migrations v xs w).trace.map Event.call)).foldl
          (fun l y => l.erase y) (markers w) := by
  intro xs
  induction xs with
  | nil =>
    intro w _ _
    simp [downLoop_nil, deletedVersions]
  | cons version rest ih =>
    intro w hmem hwr
    have hrestmem : ∀ x ∈ rest, x ∈ migrations :=
      fun x hx => hmem x (List.mem_cons_of_mem version hx)
    by_cases h : version > v
    · rw [downLoop_skip c migrations v version rest w h] at hwr ⊢
      exact ih w hrestmem hwr
    · have hin : version ∈ migrations := hmem version (List.mem_cons_self version rest)
      rcases hf : (migrations.index version).Down c.db w with ⟨res, w1⟩
      have h1 : markers w1 = markers w := by
        have := hframe _ (index_mem_entries migrations version hin) c.db w
        rw [hf] at this
        exact this
      by_cases hres : res = GoResult.ret none
      · subst hres
        rcases hw : c.Versioner.DeleteVersion (Context.WithTimeout c.Timeout)
          (migrations.index version) w1 with ⟨res2, w2⟩
        by_cases hres2 : res2 = GoResult.ret none
        · subst hres2
          have h2 : markers w2 = (markers w1).erase (migrations.index version).Version := by
            have := hstore.delete (Context.WithTimeout c.Timeout) (migrations.index version) w1
              (by rw [hw])
            rw [hw] at this
            exact this
          rw [downLoop_step c migrations v version rest w w1 w2 h hf hw] at hwr ⊢
          have hwr2 : ∀ ev ∈ (c.downLoop migrations v rest w2).trace, ∀ mig : Migration σ,
              ev.call = Call.delete mig → ev.result = GoResult.ret none :=
            fun ev hev => hwr ev (List.mem_cons_of_mem _ (List.mem_cons_of_mem _ hev))
          simp only [List.map_cons, deletedVersions, List.foldl_cons]
          rw [ih w2 hrestmem hwr2, h2, h1]
        · rw [downLoop_delete_fail c migrations v version rest w w1 w2 res2 h hf hw hres2] at hwr
          exact absurd (hwr ⟨Call.delete (migrations.index version), res2⟩ (by simp)
            (migrations.index version) rfl) hres2
      · rw [downLoop_backward_fail c migrations v version rest w w1 res h hf hres]
        simp [deletedVersions, h1]

theorem downLoop_all_ok {σ : Type} (c : Client σ) (migrations : migrationMap σ) (v : Int)
    (xs : List Int) (w : σ)
    (hok : ∀ ev ∈ (c.downLoop migrations v xs w).trace, ev.result = GoResult.ret none) :
    (c.downLoop migrations v xs w).out = GoResult.ret none ∧
    (c.downLoop migrations v xs w).trace.map Event.call =
      downCalls migrations (xs.filter (fun x => x ≤ v)) := by
  rcases downLoop_shape c migrations v xs w with
    ⟨_, hout, htr⟩ | ⟨ys, x, zs, pre, ev, _, htr, _, hev, _, _⟩
  · exact ⟨hout, htr⟩
  · exact absurd (hok ev (by rw [htr]; simp)) hev

/-- Removing one record for each version of a list from markers without repeats
leaves the markers outside that list. -/
theorem foldl_erase_eq_filter : ∀ (el L : List Int), L.Nodup →
    el.foldl (fun l y => l.erase y) L = L.filter (fun y => decide (y ∉ el)) := by
  intro el
  induction el with
  | nil =>
    intro L _
    simp
  | cons a t ih =>
    intro L hL
    rw [List.foldl_cons, ih (L.erase a) (hL.erase a), hL.erase_eq_filter a, List.filter_filter]
    apply List.filter_congr
    intro y _
    by_cases hya : y = a <;> simp [hya]

/-! ## `Down` over a marker store -/

/-- C12 (amended): over a marker store whose marker versions are pairwise distinct, for a
registry whose entries are filed under their own version and whose backward
functions leave the markers alone, when every call `Down` makes returns nil,
`Down` returns nil after calling, for each registered version up to the current
one in ascending order, its backward function and then `DeleteVersion`; the
store then holds exactly its previous markers of unregistered versions,
untouched and in order, so no marker of a registered version; and `Version()`
returns the greatest remaining version, which is 0 when every marker belonged
to a registered version. -/
theorem Down_clears {σ : Type} (c : Client σ) (migrations : migrationMap σ)
    (markers : σ → List Int) (w : σ)
    (hstore : MarkerStore c.Versioner markers) (hkey : KeyedByVersion migrations)
    (hframe : ∀ e ∈ migrations.entries, ∀ (db : Database) (w : σ),
      markers (e.2.Down db w).2 = markers w)
    (hnodup : (markers w).Nodup)
    (hok : ∀ ev ∈ (c.Down migrations w).trace, ev.result = GoResult.ret none) :
    (c.Down migrations w).out = GoResult.ret none ∧
    (c.Down migrations w).trace.map Event.call =
      downCalls migrations
        ((migrations.Versions false).1.filter (fun x => x ≤ greatestVersion (markers w))) ∧
    markers (c.Down migrations w).world =
      (markers w).filter (fun y => decide (y ∉ migrations)) ∧
    (∀ y ∈ markers (c.Down migrations w).world, y ∉ migrations) ∧
    (∃ r : Int, (c.Version (c.Down migrations w).world).1 = GoResult.ret (r, none) ∧
      (markers (c.Down migrations w).world = [] → r = 0) ∧
      (markers (c.Down migrations w).world ≠ [] →
        r ∈ markers (c.Down migrations w).world ∧
        ∀ y ∈ markers (c.Down migrations w).world, y ≤ r)) ∧
    ((∀ y ∈ markers w, y ∈ migrations) →
      (c.Version (c.Down migrations w).world).1 = GoResult.ret (0, none)) := by
  obtain ⟨hread, hm1⟩ := read_of_store c markers hstore w
  have hdown := Down_of_read c migrations w _ _ hread
  rw [hdown] at hok
  obtain ⟨hout, hcalls⟩ := downLoop_all_ok c migrations _ _ _ hok
  have hmemV : ∀ z ∈ (migrations.Versions false).1, z ∈ migrations :=
    fun z hz => (mem_Versions_asc migrations z).mp hz
  have hel : ∀ z ∈ (migrations.Versions false).1.filter
      (fun x => x ≤ greatestVersion (markers w)), z ∈ migrations :=
    fun z hz => ((mem_eligible_down migrations _ z).mp hz).1
  have hmark : markers (c.Down migrations w).world =
      (markers w).filter (fun y => decide (y ∉ migrations)) := by
    rw [hdown, downLoop_markers_of_calls c migrations _ markers hstore hframe _ _ hmemV
      (fun ev hev _ _ => hok ev hev), hcalls, deletedVersions_downCalls,
      map_index_version migrations hkey _ hel, hm1, foldl_erase_eq_filter _ _ hnodup]
    apply List.filter_congr
    intro y hy
    have hyle := greatestVersion_ge (markers w) y hy
    have hiff : y ∈ (migrations.Versions false).1.filter
        (fun x => x ≤ greatestVersion (markers w)) ↔ y ∈ migrations := by
      rw [mem_eligible_down]
      exact ⟨fun h => h.1, fun h => ⟨h, hyle⟩⟩
    simp [hiff]
  obtain ⟨hread2, _⟩ := read_of_store c markers hstore (c.Down migrations w).world
  have hres : (c.Version (c.Down migrations w).world).1 =
      GoResult.ret (greatestVersion (markers (c.Down migrations w).world), none) := by
    simp only [Client.Version]
    rw [hread2]
  refine ⟨by rw [hdown]; exact hout, by rw [hdown]; exact hcalls, hmark, ?_, ?_, ?_⟩
  · intro y hy
    rw [hmark] at hy
    have := (List.mem_filter.mp hy).2
    simpa using this
  · refine ⟨_, hres, ?_, ?_⟩
    · intro h
      rw [h]
      rfl
    · intro h
      exact ⟨greatestVersion_mem _ h, fun y hy => greatestVersion_ge _ y hy⟩
  · intro hall
    have hnil : markers (c.Down migrations w).world = [] := by
      rw [hmark]
      apply List.filter_eq_nil_iff.mpr
      intro y hy
      simpa using hall y hy
    rw [hres, hnil]
    rfl

theorem registry12_frame_down : ∀ e ∈ registry12.entries, ∀ (db : Database) (w : MemStore),
    memMarkers (e.2.Down db w).2 = memMarkers w := by
  intro e he db w
  have hh : e ∈ [(⟨2, ⟨0, 2, okFunc, okFunc⟩⟩ : Sigma (fun _ : Int => Migration MemStore)),
      ⟨1, ⟨0, 1, okFunc, okFunc⟩⟩] := he
  simp only [List.mem_cons, List.mem_singleton, List.not_mem_nil, or_false] at hh
  rcases hh with rfl | rfl <;> rfl

theorem Down_clears_witness :
    MarkerStore memClient.Versioner memMarkers ∧
    KeyedByVersion registry12 ∧
    (memMarkers store1).Nodup ∧
    (∀ ev ∈ (memClient.Down registry12 store1).trace, ev.result = GoResult.ret none) ∧
    (memClient.Down registry12 store1).out = GoResult.ret none ∧
    (memClient.Down registry12 store1).trace.map Event.call =
      [Call.backward (registry12.index 1), Call.delete (registry12.index 1)] ∧
    memMarkers (memClient.Down registry12 store1).world =
      (memMarkers store1).filter (fun y => decide (y ∉ registry12)) ∧
    memMarkers (memClient.Down registry12 store1).world = [] ∧
    (memClient.Version (memClient.Down registry12 store1).world).1 = GoResult.ret (0, none) :=
  ⟨memVersioner_markerStore, by unfold KeyedByVersion; decide, by decide, by decide,
    (Down_clears memClient registry12 memMarkers store1 memVersioner_markerStore
      (by unfold KeyedByVersion; decide) registry12_frame_down (by decide) (by decide)).1,
    rfl,
    (Down_clears memClient registry12 memMarkers store1 memVersioner_markerStore
      (by unfold KeyedByVersion; decide) registry12_frame_down (by decide) (by decide)).2.2.1,
    by decide, by decide⟩

/-! ## Helper lemmas: the store invariant -/

theorem StoreInv_append (L : List Int) (x : Int) (h : StoreInv L)
    (hlt : ∀ y ∈ L, y < x) (hx : 0 < x) : StoreInv (L ++ [x]) := by
  refine ⟨?_, ?_⟩
  · rw [List.nodup_append]
    refine ⟨h.1, List.nodup_singleton x, ?_⟩
    intro a ha hb
    rw [List.mem_singleton.mp hb] at ha
    exact absurd (hlt x ha) (lt_irrefl x)
  · intro y hy
    rcases List.mem_append.mp hy with hy | hy
    · exact h.2 y hy
    · rw [List.mem_singleton.mp hy]; exact hx

theorem StoreInv_erase (L : List Int) (x : Int) (h : StoreInv L) : StoreInv (L.erase x) :=
  ⟨h.1.erase x, fun y hy => h.2 y (List.mem_of_mem_erase hy)⟩

theorem index_framed {σ : Type} (markers : σ → List Int) (m : migrationMap σ)
    (hframed : Framed markers m) (x : Int) (hx : x ∈ m) :
    LeavesMarkers markers (m.index x).Up ∧ LeavesMarkers markers (m.index x).Down :=
  hframed _ (index_mem_entries m x hx)

/-- The `Up` loop keeps the markers pairwise distinct and positive, whatever
fails, as long as every marker is below every version still to apply. -/
theorem upLoop_inv {σ : Type} (c : Client σ) (migrations : migrationMap σ) (v : Int)
    (markers : σ → List Int) (hstore : MarkerStore c.Versioner markers)
    (hfaults : MarkerStoreFaults c.Versioner markers) (hkey : KeyedByVersion migrations)
    (hframed : Framed markers migrations) (hv : 0 ≤ v) :
    ∀ (xs : List Int) (w : σ), xs.Sorted (fun a b => a < b) → (∀ x ∈ xs, x ∈ migrations) →
      StoreInv (markers w) → (∀ y ∈ markers w, ∀ x ∈ xs, v < x → y < x) →
      StoreInv (markers (c.upLoop migrations v xs w).world) := by
  intro xs
  induction xs with
  | nil =>
    intro w _ _ hinv _
    rw [upLoop_nil]
    exact hinv
  | cons version rest ih =>
    intro w hs hmem hinv hbelow
    have hs2 := List.pairwise_cons.mp hs
    have hrestmem : ∀ x ∈ rest, x ∈ migrations :=
      fun x hx => hmem x (List.mem_cons_of_mem version hx)
    by_cases h : version ≤ v
    · rw [upLoop_skip c migrations v version rest w h]
      exact ih w hs2.2 hrestmem hinv
        (fun y hy x hx hvx => hbelow y hy x (List.mem_cons_of_mem version hx) hvx)
    · have hin : version ∈ migrations := hmem version (List.mem_cons_self version rest)
      have hvv : v < version := not_le.mp h
      have hver : (migrations.index version).Version = version :=
        index_version_of_keyed migrations hkey version hin
      have hadd : StoreInv (markers w ++ [version]) :=
        StoreInv_append (markers w) version hinv
          (fun y hy => hbelow y hy version (List.mem_cons_self version rest) hvv)
          (lt_of_le_of_lt hv hvv)
      rcases hf : (migrations.index version).Up c.db w with ⟨res, w1⟩
      have h1 : markers w1 = markers w := by
        have := (index_framed markers migrations hframed version hin).1 c.db w
        rw [hf] at this
        exact this
      by_cases hres : res = GoResult.ret none
      · subst hres
        rcases hw : c.Versioner.WriteVersion (Context.WithTimeout c.Timeout)
          (migrations.index version) w1 with ⟨res2, w2⟩
        by_cases hres2 : res2 = GoResult.ret none
        · subst hres2
          have h2 : markers w2 = markers w ++ [version] := by
            have := hstore.write (Context.WithTimeout c.Timeout) (migrations.index version) w1
              (by rw [hw])
            rw [hw, hver, h1] at this
            exact this
          rw [upLoop_step c migrations v version rest w w1 w2 h hf hw]
          apply ih w2 hs2.2 hrestmem
          · rw [h2]; exact hadd
          · intro y hy x hx hvx
            rw [h2] at hy
            rcases List.mem_append.mp hy with hy | hy
            · exact hbelow y hy x (List.mem_cons_of_mem version hx) hvx
            · rw [List.mem_singleton.mp hy]; exact hs2.1 x hx
        · rw [upLoop_write_fail c migrations v version rest w w1 w2 res2 h hf hw hres2]
          have := hfaults.write_fail (Context.WithTimeout c.Timeout) (migrations.index version)
            w1 (by rw [hw]; exact hres2)
          rw [hw, hver, h1] at this
          rcases this with h2 | h2
          · show StoreInv (markers w2)
            rw [h2]; exact hinv
          · show StoreInv (markers w2)
            rw [h2]; exact hadd
      · rw [upLoop_forward_fail c migrations v version rest w w1 res h hf hres]
        show StoreInv (markers w1)
        rw [h1]; exact hinv

/-- The `Down` loop keeps the markers pairwise distinct and positive, whatever
fails. -/
theorem downLoop_inv {σ : Type} (c : Client σ) (migrations : migrationMap σ) (v : Int)
    (markers : σ → List Int) (hstore : MarkerStore c.Versioner markers)
    (hfaults : MarkerStoreFaults c.Versioner markers)
    (hframed : Framed markers migrations) :
    ∀ (xs : List Int) (w : σ), (∀ x ∈ xs, x ∈ migrations) →
      StoreInv (markers w) → StoreInv (markers (c.downLoop migrations v xs w).world) := by
  intro xs
  induction xs with
  | nil =>
    intro w _ hinv
    rw [downLoop_nil]
    exact hinv
  | cons version rest ih =>
    intro w hmem hinv
    have hrestmem : ∀ x ∈ rest, x ∈ migrations :=
      fun x hx => hmem x (List.mem_cons_of_mem version hx)
    by_cases h : version > v
    · rw [downLoop_skip c migrations v version rest w h]
      exact ih w hrestmem hinv
    · have hin : version ∈ migrations := hmem version (List.mem_cons_self version rest)
      rcases hf : (migrations.index version).Down c.db w with ⟨res, w1⟩
      have h1 : markers w1 = markers w := by
        have := (index_framed markers migrations hframed version hin).2 c.db w
        rw [hf] at this
        exact this
      by_cases hres : res = GoResult.ret none
      · subst hres
        rcases hw : c.Versioner.DeleteVersion (Context.WithTimeout c.Timeout)
          (migrations.index version) w1 with ⟨res2, w2⟩
        by_cases hres2 : res2 = GoResult.ret none
        · subst hres2
          have h2 : markers w2 = (markers w).erase (migrations.index version).Version := by
            have := hstore.delete (Context.WithTimeout c.Timeout) (migrations.index version) w1
              (by rw [hw])
            rw [hw, h1] at this
            exact this
          rw [downLoop_step c migrations v version rest w w1 w2 h hf hw]
          apply ih w2 hrestmem
          rw [h2]
          exact StoreInv_erase _ _ hinv
        · rw [downLoop_delete_fail c migrations v version rest w w1 w2 res2 h hf hw hres2]
          have := hfaults.delete_fail (Context.WithTimeout c.Timeout)
            (migrations.index version) w1 (by rw [hw]; exact hres2)
          rw [hw, h1] at this
          rcases this with h2 | h2
          · show StoreInv (markers w2)
            rw [h2]; exact hinv
          · show StoreInv (markers w2)
            rw [h2]; exact StoreInv_erase _ _ hinv
      · rw [downLoop_backward_fail c migrations v version rest w w1 res h hf hres]
        show StoreInv (markers w1)
        rw [h1]; exact hinv

theorem greatestVersion_nonneg (L : List Int) (h : StoreInv L) : 0 ≤ greatestVersion L := by
  by_cases hL : L = []
  · rw [hL]; exact le_refl 0
  · exact le_of_lt (h.2 _ (greatestVersion_mem L hL))

theorem Up_inv {σ : Type} (c : Client σ) (migrations : migrationMap σ)
    (markers : σ → List Int) (hstore : MarkerStore c.Versioner markers)
    (hfaults : MarkerStoreFaults c.Versioner markers) (hkey : KeyedByVersion migrations)
    (hframed : Framed markers migrations) (w : σ) (hinv : StoreInv (markers w)) :
    StoreInv (markers (c.Up migrations w).world) := by
  obtain ⟨hread, hm1⟩ := read_of_store c markers hstore w
  rw [Up_of_read c migrations w _ _ hread]
  apply upLoop_inv c migrations _ markers hstore hfaults hkey hframed
    (greatestVersion_nonneg _ hinv) _ _ (Versions_asc_sorted migrations)
    (fun z hz => (mem_Versions_asc migrations z).mp hz)
  · rw [hm1]; exact hinv
  · intro y hy x _ hvx
    rw [hm1] at hy
    exact lt_of_le_of_lt (greatestVersion_ge _ y hy) hvx

theorem Down_inv {σ : Type} (c : Client σ) (migrations : migrationMap σ)
    (markers : σ → List Int) (hstore : MarkerStore c.Versioner markers)
    (hfaults : MarkerStoreFaults c.Versioner markers)
    (hframed : Framed markers migrations) (w : σ) (hinv : StoreInv (markers w)) :
    StoreInv (markers (c.Down migrations w).world) := by
  obtain ⟨hread, hm1⟩ := read_of_store c markers hstore w
  rw [Down_of_read c migrations w _ _ hread]
  apply downLoop_inv c migrations _ markers hstore hfaults hframed _ _
    (fun z hz => (mem_Versions_asc migrations z).mp hz)
  rw [hm1]; exact hinv

/-- Every write of an `Up` carries a version above every marker held when the
`Up` began. -/
theorem Up_writes_above {σ : Type} (c : Client σ) (migrations : migrationMap σ)
    (markers : σ → List Int) (hstore : MarkerStore c.Versioner markers)
    (hkey : KeyedByVersion migrations) (w : σ) :
    ∀ mig : Migration σ, Call.write mig ∈ (c.Up migrations w).trace.map Event.call →
      ∀ y ∈ markers w, y < mig.Version := by
  intro mig hmig y hy
  obtain ⟨hread, _⟩ := read_of_store c markers hstore w
  rw [Up_of_read c migrations w _ _ hread] at hmig
  obtain ⟨rest, hrest⟩ := upLoop_calls_initial c migrations (greatestVersion (markers w))
    (migrations.Versions false).1 (c.Versioner.ReadVersion (Context.WithTimeout c.Timeout) w).2
  have hmem : Call.write mig ∈ upCalls migrations
      ((migrations.Versions false).1.filter (fun x => greatestVersion (markers w) < x)) := by
    rw [← hrest]; exact List.mem_append_left _ hmig
  simp only [upCalls, List.mem_flatMap, List.mem_cons, List.mem_singleton] at hmem
  obtain ⟨x, hx, hc⟩ := hmem
  have hx2 := (mem_eligible_up migrations _ x).mp hx
  have hmx : mig = migrations.index x := by
    rcases hc with hc | hc | hc
    · cases hc
    · exact Call.write.inj hc
    · simp at hc
  rw [hmx, index_version_of_keyed migrations hkey x hx2.1]
  exact lt_of_le_of_lt (greatestVersion_ge _ y hy) hx2.2

/-! ## Helper lemmas: registry calls keep the migration functions framed -/

theorem framed_empty {σ : Type} (markers : σ → List Int) :
    Framed markers (∅ : migrationMap σ) := by
  intro e he
  simp at he

theorem framed_Register {σ : Type} (markers : σ → List Int) (m : migrationMap σ) (v : Int)
    (up down : Func σ) (h : Framed markers m) (hup : LeavesMarkers markers up)
    (hdown : LeavesMarkers markers down) : Framed markers (Register m v up down).2 := by
  rcases hl : m.lookup v with _ | b
  · simp only [Register, hl]
    intro e he
    rw [AList.insert_entries] at he
    rcases List.mem_cons.mp he with rfl | he
    · exact ⟨hup, hdown⟩
    · exact h e ((List.kerase_sublist v m.entries).subset he)
  · simp only [Register, hl]
    exact h

theorem framed_Unregister {σ : Type} (markers : σ → List Int) (m : migrationMap σ) (v : Int)
    (h : Framed markers m) : Framed markers (Unregister m v) := by
  rcases hl : m.lookup v with _ | b
  · simp only [Unregister, hl]
    exact h
  · simp only [Unregister, hl]
    intro e he
    exact h e ((List.kerase_sublist v m.entries).subset he)

/-- One call on the package keeps the registry keyed and framed and the markers
pairwise distinct and positive. -/
theorem step_inv {σ : Type} (c : Client σ) (markers : σ → List Int)
    (hstore : MarkerStore c.Versioner markers)
    (hfaults : MarkerStoreFaults c.Versioner markers) (s : State σ) (op : Op σ)
    (hop : ∀ (v : Int) (up down : Func σ), op = Op.registry (RegistryOp.register v up down) →
      LeavesMarkers markers up ∧ LeavesMarkers markers down)
    (hkey : KeyedByVersion s.registry) (hframed : Framed markers s.registry)
    (hinv : StoreInv (markers s.world)) :
    KeyedByVersion (c.step s op).registry ∧ Framed markers (c.step s op).registry ∧
      StoreInv (markers (c.step s op).world) := by
  cases op with
  | registry rop =>
    cases rop with
    | register v up down =>
      obtain ⟨hup, hdown⟩ := hop v up down rfl
      exact ⟨keyed_Register s.registry v up down hkey,
        framed_Register markers s.registry v up down hframed hup hdown, hinv⟩
    | unregister v =>
      exact ⟨keyed_Unregister s.registry v hkey, framed_Unregister markers s.registry v hframed,
        hinv⟩
  | up =>
    exact ⟨hkey, hframed, Up_inv c s.registry markers hstore hfaults hkey hframed s.world hinv⟩
  | down =>
    exact ⟨hkey, hframed, Down_inv c s.registry markers hstore hfaults hframed s.world hinv⟩

theorem run_inv {σ : Type} (c : Client σ) (markers : σ → List Int)
    (hstore : MarkerStore c.Versioner markers)
    (hfaults : MarkerStoreFaults c.Versioner markers) :
    ∀ (ops : List (Op σ)) (s : State σ),
      (∀ op ∈ ops, ∀ (v : Int) (up down : Func σ),
        op = Op.registry (RegistryOp.register v up down) →
        LeavesMarkers markers up ∧ LeavesMarkers markers down) →
      KeyedByVersion s.registry → Framed markers s.registry → StoreInv (markers s.world) →
      KeyedByVersion (c.run s ops).registry ∧ Framed markers (c.run s ops).registry ∧
        StoreInv (markers (c.run s ops).world) := by
  intro ops
  induction ops with
  | nil =>
    intro s _ hkey hframed hinv
    exact ⟨hkey, hframed, hinv⟩
  | cons op rest ih =>
    intro s hops hkey hframed hinv
    obtain ⟨h1, h2, h3⟩ := step_inv c markers hstore hfaults s op
      (hops op (List.mem_cons_self op rest)) hkey hframed hinv
    exact ih (c.step s op) (fun o ho => hops o (List.mem_cons_of_mem op ho)) h1 h2 h3

/-! ## The store invariant -/

/-- C18 (amended): over a marker store whose failing writes and deletes either do nothing
or carry out their change all the same, starting from the empty registry and a
store without markers, after any sequence of `Register`, `Unregister`, `Up` and
`Down` calls whose registered functions leave the markers alone (and may fail
at will), the store holds pairwise distinct versions, all greater than 0; and
every `WriteVersion` of an `Up` made from there carries a version strictly
greater than every version the store held when that `Up` began. -/
theorem store_invariant {σ : Type} (c : Client σ) (markers : σ → List Int)
    (hstore : MarkerStore c.Versioner markers)
    (hfaults : MarkerStoreFaults c.Versioner markers)
    (w0 : σ) (hempty : markers w0 = []) (ops : List (Op σ))
    (hops : ∀ op ∈ ops, ∀ (v : Int) (up down : Func σ),
      op = Op.registry (RegistryOp.register v up down) →
      LeavesMarkers markers up ∧ LeavesMarkers markers down) :
    (markers (c.run ⟨∅, w0⟩ ops).world).Nodup ∧
    (∀ y ∈ markers (c.run ⟨∅, w0⟩ ops).world, 0 < y) ∧
    (∀ mig : Migration σ,
      Call.write mig ∈
        (c.Up (c.run ⟨∅, w0⟩ ops).registry (c.run ⟨∅, w0⟩ ops).world).trace.map Event.call →
      ∀ y ∈ markers (c.run ⟨∅, w0⟩ ops).world, y < mig.Version) := by
  have hinv0 : StoreInv (markers w0) := by
    rw [hempty]
    exact ⟨List.nodup_nil, fun y hy => by simp at hy⟩
  obtain ⟨hkey, _, hinv⟩ := run_inv c markers hstore hfaults ops ⟨∅, w0⟩ hops keyed_empty
    (framed_empty markers) hinv0
  exact ⟨hinv.1, hinv.2, Up_writes_above c _ markers hstore hkey _⟩

theorem memVersioner_faults : MarkerStoreFaults memVersioner memMarkers where
  write_fail := fun ctx m w h => by
    rw [memVersioner_write] at h
    exact absurd rfl h
  delete_fail := fun ctx m w h => by
    rw [memVersioner_delete] at h
    exact absurd rfl h

theorem okFunc_leaves : LeavesMarkers memMarkers okFunc := fun _ _ => rfl

theorem failFunc_leaves : LeavesMarkers memMarkers failFunc := fun _ _ => rfl

theorem flakyVersioner_read (ctx : Context) (w : MemStore) :
    flakyVersioner.ReadVersion ctx w =
      (GoResult.ret (greatestVersion (memMarkers w), none), w) :=
  memVersioner_read ctx w

theorem flakyVersioner_write (ctx : Context) (m : Migration MemStore) (w : MemStore) :
    flakyVersioner.WriteVersion ctx m w =
      if m.Version = 2 then (GoResult.ret (some Err.ErrClientDisconnected), w)
      else (GoResult.ret none, { w with docs := w.docs ++ [⟨m.Version, w.clock⟩] }) := by
  by_cases h : m.Version = 2
  · simp [flakyVersioner, version.toVersioner, version.WriteVersion, flakyCollection,
      docVersion_version, h]
  · simp [flakyVersioner, version.toVersioner, version.WriteVersion, flakyCollection,
      memCollection, docVersion_version, docTimestamp, List.lookup, h]

theorem flakyVersioner_delete (ctx : Context) (m : Migration MemStore) (w : MemStore) :
    flakyVersioner.DeleteVersion ctx m w =
      if m.Version = 1 then (GoResult.ret (some Err.ErrClientDisconnected), w)
      else (GoResult.ret none,
        { w with docs := w.docs.eraseP (fun d => decide (d.version = m.Version)) }) := by
  have hm : MarkerDoc.matches [("version", BsonValue.int m.Version)] =
      fun d => decide (d.version = m.Version) := funext (matches_version m.Version)
  by_cases h : m.Version = 1
  · simp [flakyVersioner, version.toVersioner, version.DeleteVersion, flakyCollection,
      docVersion_version, h]
  · simp [flakyVersioner, version.toVersioner, version.DeleteVersion, flakyCollection,
      memCollection, docVersion_version, hm, h]

/-- The version store over the flaky collection behaves as a marker store. -/
theorem flakyVersioner_markerStore : MarkerStore flakyVersioner memMarkers where
  read := fun ctx w => by rw [flakyVersioner_read]; exact ⟨rfl, rfl⟩
  write := fun ctx m w h => by
    rw [flakyVersioner_write] at h ⊢
    by_cases h2 : m.Version = 2
    · simp [h2] at h
    · simp [h2, memMarkers]
  delete := fun ctx m w h => by
    rw [flakyVersioner_delete] at h ⊢
    by_cases h1 : m.Version = 1
    · simp [h1] at h
    · simp only [h1, if_false, memMarkers]
      exact map_version_eraseP m.Version w.docs

/-- The failing writes and deletes of the flaky collection change nothing. -/
theorem flakyVersioner_faults : MarkerStoreFaults flakyVersioner memMarkers where
  write_fail := fun ctx m w h => by
    rw [flakyVersioner_write] at h ⊢
    by_cases h2 : m.Version = 2
    · left; simp [h2]
    · simp [h2] at h
  delete_fail := fun ctx m w h => by
    rw [flakyVersioner_delete] at h ⊢
    by_cases h1 : m.Version = 1
    · left; simp [h1]
    · simp [h1] at h

theorem store_invariant_witness :
    MarkerStore flakyClient.Versioner memMarkers ∧
    MarkerStoreFaults flakyClient.Versioner memMarkers ∧
    memMarkers emptyStore = [] ∧
    (flakyClient.Up registry12 emptyStore).trace.map (fun ev => ev.result) =
      [GoResult.ret none, GoResult.ret none, GoResult.ret none,
        GoResult.ret (some Err.ErrClientDisconnected)] ∧
    (flakyClient.Down registry12 (flakyClient.Up registry12 emptyStore).world).trace.map
        (fun ev => ev.result) =
      [GoResult.ret none, GoResult.ret (some Err.ErrClientDisconnected)] ∧
    memMarkers (flakyClient.run ⟨∅, emptyStore⟩
      [Op.registry (RegistryOp.register 1 okFunc okFunc),
        Op.registry (RegistryOp.register 2 okFunc okFunc),
        Op.up, Op.down]).world = [1] ∧
    (memMarkers (flakyClient.run ⟨∅, emptyStore⟩
      [Op.registry (RegistryOp.register 1 okFunc okFunc),
        Op.registry (RegistryOp.register 2 okFunc okFunc),
        Op.up, Op.down]).world).Nodup :=
  ⟨flakyVersioner_markerStore, flakyVersioner_faults, rfl, by decide, by decide, by decide,
    (store_invariant flakyClient memMarkers flakyVersioner_markerStore flakyVersioner_faults
      emptyStore rfl
      [Op.registry (RegistryOp.register 1 okFunc okFunc),
        Op.registry (RegistryOp.register 2 okFunc okFunc),
        Op.up, Op.down]
      (by
        intro op hop v up down h
        subst h
        simp only [List.mem_cons, Op.registry.injEq, RegistryOp.register.injEq,
          List.mem_singleton, List.not_mem_nil, or_false, reduceCtorEq] at hop
        rcases hop with ⟨_, hu, hd⟩ | ⟨_, hu, hd⟩
        · rw [hu, hd]; exact ⟨okFunc_leaves, okFunc_leaves⟩
        · rw [hu, hd]; exact ⟨okFunc_leaves, okFunc_leaves⟩)).1⟩

/-! ## Migration functions that write to the marker collection -/

/-- C10 as stated fails: over the in-memory marker store, with registry {1}
whose forward function inserts a record of version 100 into the marker
collection, and the empty store (current version 0), every call of `Up` returns
nil and `Up` returns nil, yet the store then holds the markers 100 and 1 and
`Version()` returns 100, not the maximum of 0 and the greatest registered
version 1. -/
theorem Up_persists_counterexample :
    MarkerStore memClient.Versioner memMarkers ∧
    KeyedByVersion registryInsert1 ∧
    registryInsert1.keys = [1] ∧
    (memClient.Version emptyStore).1 = GoResult.ret (0, none) ∧
    (∀ ev ∈ (memClient.Up registryInsert1 emptyStore).trace, ev.result = GoResult.ret none) ∧
    (memClient.Up registryInsert1 emptyStore).out = GoResult.ret none ∧
    memMarkers (memClient.Up registryInsert1 emptyStore).world = [100, 1] ∧
    (memClient.Version (memClient.Up registryInsert1 emptyStore).world).1 =
      GoResult.ret (100, none) ∧
    (memClient.Version (memClient.Up registryInsert1 emptyStore).world).1 ≠
      GoResult.ret (max 0 1, none) :=
  ⟨memVersioner_markerStore, by unfold KeyedByVersion; decide, by decide, by decide, by decide,
    by decide, by decide, by decide, by decide⟩

/-- C11 as stated fails: over the in-memory marker store, with registry {1, 2}
whose forward function of version 1 inserts a record of version 100 into the
marker collection and whose forward function of version 2 fails, and the empty
store, `Up` returns the error of forward 2 after forward 1 and the write of
marker 1 succeeded, yet `Version()` then returns 100, not the greatest
registered version between 0 and 2, which is 1. -/
theorem Up_forward_failure_counterexample :
    MarkerStore memClient.Versioner memMarkers ∧
    KeyedByVersion registryInsert1Fail2 ∧
    (memClient.Version emptyStore).1 = GoResult.ret (0, none) ∧
    (memClient.Up registryInsert1Fail2 emptyStore).trace =
      [⟨Call.forward (registryInsert1Fail2.index 1), GoResult.ret none⟩,
        ⟨Call.write (registryInsert1Fail2.index 1), GoResult.ret none⟩,
        ⟨Call.forward (registryInsert1Fail2.index 2),
          GoResult.ret (some Err.ErrClientDisconnected)⟩] ∧
    (memClient.Up registryInsert1Fail2 emptyStore).out =
      GoResult.ret (some Err.ErrClientDisconnected) ∧
    (memClient.Version (memClient.Up registryInsert1Fail2 emptyStore).world).1 =
      GoResult.ret (100, none) ∧
    (memClient.Version (memClient.Up registryInsert1Fail2 emptyStore).world).1 ≠
      GoResult.ret (1, none) ∧
    ¬ ((100 : Int) < 2) :=
  ⟨memVersioner_markerStore, by unfold KeyedByVersion; decide, by decide, rfl, by decide,
    by decide, by decide, by decide⟩

/-- C12 as stated fails: over the in-memory marker store, with registry {1}
whose backward function drops the records of the marker collection, and a store
holding the distinct markers 1 and 7, every call of `Down` returns nil and
`Down` returns nil, yet the marker of the unregistered version 7 is gone. -/
theorem Down_clears_counterexample :
    MarkerStore memClient.Versioner memMarkers ∧
    KeyedByVersion registryDrop1 ∧
    memMarkers store17 = [1, 7] ∧
    (memMarkers store17).Nodup ∧
    (7 : Int) ∉ registryDrop1 ∧
    (∀ ev ∈ (memClient.Down registryDrop1 store17).trace, ev.result = GoResult.ret none) ∧
    (memClient.Down registryDrop1 store17).out = GoResult.ret none ∧
    memMarkers (memClient.Down registryDrop1 store17).world = [] ∧
    (7 : Int) ∉ memMarkers (memClient.Down registryDrop1 store17).world :=
  ⟨memVersioner_markerStore, by unfold KeyedByVersion; decide, by decide, by decide, by decide,
    by decide, by decide, by decide, by decide⟩

/-- C18 as stated fails: over the in-memory marker store, from the empty registry
and the empty store, after `Register(1, insertZeros, ok)` and `Up()`, where the
forward function of version 1 inserts two records of version 0 into the marker
collection, the store holds the markers 0, 0 and 1: two records of one version,
and versions that are not greater than 0. -/
theorem store_invariant_counterexample :
    MarkerStore memClient.Versioner memMarkers ∧
    MarkerStoreFaults memClient.Versioner memMarkers ∧
    memMarkers emptyStore = [] ∧
    memMarkers (memClient.run ⟨∅, emptyStore⟩
      [Op.registry (RegistryOp.register 1 insertZerosFunc okFunc), Op.up]).world = [0, 0, 1] ∧
    ¬ (memMarkers (memClient.run ⟨∅, emptyStore⟩
      [Op.registry (RegistryOp.register 1 insertZerosFunc okFunc), Op.up]).world).Nodup ∧
    ¬ (∀ y ∈ memMarkers (memClient.run ⟨∅, emptyStore⟩
      [Op.registry (RegistryOp.register 1 insertZerosFunc okFunc), Op.up]).world, 0 < y) :=
  ⟨memVersioner_markerStore, memVersioner_faults, rfl, by decide, by decide, by decide⟩

end Mongonogo
